import Mathlib

/-!
Verification development for the `raytracing.rs` repository.

The Rust source is shallowly embedded in Lean 4.  Scalars (`f64` in the
source) are modelled as exact rationals `ℚ`; the handful of places where the
source relies on IEEE special values (division by zero producing ±∞/NaN in
the AABB slab test, `f64::INFINITY` as an upper ray bound) are modelled
explicitly: an `FP` carrier with NaN/±∞ and Rust's NaN-ignoring `min`/`max`
for the slab test, and `WithTop ℚ` for upper parametric bounds.  Calls to
`f64::sqrt` and `f64::powf` are modelled by explicitly passed function
parameters (oracles); theorems that depend on square roots assume the oracle
is an exact square root at the discriminants actually encountered.
-/

namespace Raytracer

/-- Scalar with a point at infinity, used for the `t_max` parameter which the
renderer passes as `f64::INFINITY`. -/
abbrev Qi := WithTop ℚ

/-- Three-component vector of rationals, modelling `nalgebra::Vector3<f64>`
(`model::Vec3`) and `Point3<f64>`. -/
structure Vec3 where
  x : ℚ
  y : ℚ
  z : ℚ
deriving DecidableEq

/-- Colors are 3-vectors, as in `color.rs` (`pub type Color = Vector3<f64>`). -/
abbrev Color := Vec3

namespace Vec3

def add (a b : Vec3) : Vec3 := ⟨a.x + b.x, a.y + b.y, a.z + b.z⟩

def sub (a b : Vec3) : Vec3 := ⟨a.x - b.x, a.y - b.y, a.z - b.z⟩

def neg (a : Vec3) : Vec3 := ⟨-a.x, -a.y, -a.z⟩

/-- Multiplication of a vector by a scalar (`v * s` in nalgebra). -/
def smul (a : Vec3) (s : ℚ) : Vec3 := ⟨a.x * s, a.y * s, a.z * s⟩

instance : Add Vec3 := ⟨add⟩

instance : Sub Vec3 := ⟨sub⟩

instance : Neg Vec3 := ⟨neg⟩

instance : HMul Vec3 ℚ Vec3 := ⟨smul⟩

instance : Zero Vec3 := ⟨⟨0, 0, 0⟩⟩

/-- Component access by axis index, modelling `v[i]` on nalgebra vectors. -/
def nth (v : Vec3) : Fin 3 → ℚ
  | 0 => v.x
  | 1 => v.y
  | 2 => v.z

/-- Dot product. -/
def dot (a b : Vec3) : ℚ := a.x * b.x + a.y * b.y + a.z * b.z

/-- Cross product. -/
def cross (a b : Vec3) : Vec3 :=
  ⟨a.y * b.z - a.z * b.y, a.z * b.x - a.x * b.z, a.x * b.y - a.y * b.x⟩

/-- Component-wise product, modelling nalgebra's `component_mul`. -/
def compMul (a b : Vec3) : Vec3 := ⟨a.x * b.x, a.y * b.y, a.z * b.z⟩

/-- Vector with all three components equal, modelling `Vec3::repeat`. -/
def repeat' (s : ℚ) : Vec3 := ⟨s, s, s⟩

/-- Normalisation `v.normalize() = v / ‖v‖`, with the square root supplied by
the oracle `sq` applied to `v · v`. -/
def normalizeW (sq : ℚ → ℚ) (v : Vec3) : Vec3 := v.smul (sq (dot v v))⁻¹

/-- Zero vector, modelling `Vec3::zeros()` / `Color::zeros()`. -/
def zeros : Vec3 := ⟨0, 0, 0⟩

end Vec3

/-- Ray with an origin and a direction, from `ray.rs`. -/
structure Ray where
  origin : Vec3
  dir : Vec3
deriving DecidableEq

namespace Ray

/-- Point along the ray: `origin + direction * distance` (`Ray::get_point`). -/
def getPoint (r : Ray) (distance : ℚ) : Vec3 := r.origin + r.dir.smul distance

end Ray

/-! ### IEEE-style extended scalars for the slab test

`Aabb::intersects` divides by raw direction components, so `±∞` and NaN can
appear.  `FP` models the `f64` values arising there; `fpMin`/`fpMax` follow
Rust's `f64::min`/`f64::max`, which return the other operand when one is NaN,
and `fpLt` follows IEEE `<`, which is false whenever NaN is involved. -/
inductive FP where
  | nan : FP
  | pinf : FP
  | ninf : FP
  | fin : ℚ → FP
deriving DecidableEq

namespace FP

/-- Division of two finite scalars with IEEE zero-divisor behaviour
(the dividends in the slab test are always finite). -/
def div (a b : ℚ) : FP :=
  if b = 0 then
    if 0 < a then pinf else if a < 0 then ninf else nan
  else fin (a / b)

/-- Rust's `f64::min`: ignores a NaN operand. -/
def fpMin : FP → FP → FP
  | nan, b => b
  | a, nan => a
  | ninf, _ => ninf
  | _, ninf => ninf
  | pinf, b => b
  | a, pinf => a
  | fin p, fin q => fin (min p q)

/-- Rust's `f64::max`: ignores a NaN operand. -/
def fpMax : FP → FP → FP
  | nan, b => b
  | a, nan => a
  | pinf, _ => pinf
  | _, pinf => pinf
  | ninf, b => b
  | a, ninf => a
  | fin p, fin q => fin (max p q)

/-- IEEE strict less-than: false whenever NaN is involved. -/
def fpLt : FP → FP → Bool
  | nan, _ => false
  | _, nan => false
  | ninf, ninf => false
  | ninf, _ => true
  | _, ninf => false
  | pinf, _ => false
  | _, pinf => true
  | fin p, fin q => decide (p < q)

/-- Embedding of an upper bound (possibly `f64::INFINITY`) into `FP`. -/
def ofQi : Qi → FP
  | ⊤ => pinf
  | (q : ℚ) => fin q

end FP

/-! ### Axis-aligned bounding boxes (`aabb.rs`) -/
/-- Axis-aligned bounding box with minimum and maximum corners. -/
structure Aabb where
  min : Vec3
  max : Vec3
deriving DecidableEq

namespace Aabb

/-- Inner loop of `Aabb::intersects`: processes the remaining axes, keeping
the running entry/exit interval, and fails fast when it inverts. -/
def slabLoop (b : Aabb) (r : Ray) : List (Fin 3) → FP → FP → Bool
  | [], _, _ => true
  | i :: rest, tmin, tmax =>
    let t1 := FP.div (b.min.nth i - r.origin.nth i) (r.dir.nth i)
    let t2 := FP.div (b.max.nth i - r.origin.nth i) (r.dir.nth i)
    let tmin' := FP.fpMax (FP.fpMin t1 t2) tmin
    let tmax' := FP.fpMin (FP.fpMax t1 t2) tmax
    if FP.fpLt tmax' tmin' then false else slabLoop b r rest tmin' tmax'

/-- Slab test from `Aabb::intersects`: for each axis divide by the raw
direction component, narrow the interval with `f64::min`/`f64::max`, and
return `false` as soon as the interval inverts. -/
def intersects (b : Aabb) (r : Ray) (tmin : ℚ) (tmax : Qi) : Bool :=
  slabLoop b r [0, 1, 2] (FP.fin tmin) (FP.ofQi tmax)

/-- Box containing both inputs: component-wise min of minima and max of
maxima (`Aabb::get_surrounding_aabb`). -/
def getSurroundingAabb (box0 box1 : Aabb) : Aabb :=
  ⟨⟨Min.min box0.min.x box1.min.x, Min.min box0.min.y box1.min.y,
    Min.min box0.min.z box1.min.z⟩,
   ⟨Max.max box0.max.x box1.max.x, Max.max box0.max.y box1.max.y,
    Max.max box0.max.z box1.max.z⟩⟩

/-- Surface area of a box: `2(dx·dy + dy·dz + dz·dx)`.
Modelled from the spec: `Aabb::surface_area` is referenced by the SAH cost
evaluation in `accelerator/bvh.rs` but its definition is not among the
provided sources; the spec's surface-area-heuristic cost
(§4.3, `left_box.area / total_area × …`) fixes the standard surface-area
meaning used here. -/
def surfaceArea (b : Aabb) : ℚ :=
  let dx := b.max.x - b.min.x
  let dy := b.max.y - b.min.y
  let dz := b.max.z - b.min.z
  2 * (dx * dy + dy * dz + dz * dx)

end Aabb

/-! ### BRDFs (`brdf/*.rs`) and materials (`material/*.rs`) -/
/-- Value of `std::f64::consts::FRAC_1_PI` as the exact rational the `f64`
bit pattern denotes. -/
def frac1Pi : ℚ := 5734161139222659 / 18014398509481984

/-- Lambertian BRDF (`brdf/lambertian.rs`). -/
structure Lambertian where
  kd : ℚ
  cd : Color
deriving DecidableEq

namespace Lambertian

/-- Hemispherical reflectance `cd * kd`. -/
def rho (l : Lambertian) : Color := l.cd.smul l.kd

/-- BRDF evaluation: `rho() * FRAC_1_PI` (the hit point and incoming
direction are unused by the source). -/
def f (l : Lambertian) : Color := l.rho.smul frac1Pi

end Lambertian

/-- Glossy specular BRDF (`brdf/glossy_specular.rs`). -/
structure GlossySpecular where
  ks : ℚ
  exp : ℚ
  cs : Color
deriving DecidableEq

/-- Perfect specular BRDF (`brdf/perfect_specular.rs`). -/
structure PerfectSpecular where
  kr : ℚ
  cr : Color
deriving DecidableEq

/-- Materials, as a closed sum of the four variants the source defines as
trait objects (`Matte`, `Phong`, `Reflective`, `Emissive`). -/
inductive Material where
  | Matte (ambientBrdf diffuseBrdf : Lambertian)
  | Phong (ambientBrdf diffuseBrdf : Lambertian) (specularBrdf : GlossySpecular)
  | Reflective (ambientBrdf diffuseBrdf : Lambertian) (specularBrdf : GlossySpecular)
      (reflectiveBrdf : PerfectSpecular)
  | Emissive (ls : ℚ) (ce : Color)
deriving DecidableEq

namespace Material

/-- The `emissive()` trait method: `true` only for `Emissive`. -/
def emissive : Material → Bool
  | .Emissive _ _ => true
  | _ => false

end Material

/-! ### Sphere primitive (`geometric_object/sphere.rs`) -/
/-- Sphere primitive: radius, center, material. -/
structure Sphere where
  radius : ℚ
  center : Vec3
  material : Material
deriving DecidableEq

/-- Hit record (`ray.rs`): distance, hit point, normal, material. -/
structure HitRecord where
  dist : ℚ
  hitPoint : Vec3
  normal : Vec3
  material : Material
deriving DecidableEq

namespace Sphere

/-- Surface normal `((p − center) / radius).normalize()`; the square root in
`normalize` is supplied by the oracle `sq`. -/
def normal (sq : ℚ → ℚ) (s : Sphere) (p : Vec3) : Vec3 :=
  Vec3.normalizeW sq ((p - s.center).smul s.radius⁻¹)

/-- Ray-sphere intersection (`Sphere::intersects`): quadratic coefficients,
discriminant test, then the nearer root followed by the farther root when the
nearer one falls outside `[t_min, t_max]`.  `sq` models `f64::sqrt`. -/
def intersects (sq : ℚ → ℚ) (s : Sphere) (ray : Ray) (tmin : ℚ) (tmax : Qi) :
    Option HitRecord :=
  let oc := ray.origin - s.center
  let a := ray.dir.dot ray.dir
  let halfB := oc.dot ray.dir
  let c := oc.dot oc - s.radius * s.radius
  let discriminant := halfB * halfB - a * c
  if discriminant < 0 then none
  else
    let sqrtDisc := sq discriminant
    let t := (-halfB - sqrtDisc) / a
    if t < tmin ∨ tmax < (t : Qi) then
      let tFar := (-halfB + sqrtDisc) / a
      if tFar < tmin ∨ tmax < (tFar : Qi) then none
      else some ⟨tFar, ray.getPoint tFar, s.normal sq (ray.getPoint tFar), s.material⟩
    else some ⟨t, ray.getPoint t, s.normal sq (ray.getPoint t), s.material⟩

/-- Bounding box of a sphere: `center ± repeat(radius)`
(`get_min_point` / `get_max_point`). -/
def boundingBox (s : Sphere) : Aabb :=
  ⟨s.center - Vec3.repeat' s.radius, s.center + Vec3.repeat' s.radius⟩

end Sphere

/-! ### Geometry trees (`accelerator/bvh.rs` nodes over sphere leaves) -/
/-- A geometry is either a primitive (leaf) or a BVH node wrapping two
children and a bounding box, as in `struct Bvh`. -/
inductive Geometry where
  | sphere (s : Sphere)
  | node (left right : Geometry) (aabb : Aabb)
deriving DecidableEq

namespace Geometry

/-- Bounding box of a geometry (`get_bounding_box`): the stored box for a
node, the center±radius box for a sphere. -/
def boundingBox : Geometry → Aabb
  | sphere s => s.boundingBox
  | node _ _ box => box

/-- Primitive leaves of a geometry tree, in left-to-right order. -/
def leaves : Geometry → List Sphere
  | sphere s => [s]
  | node l r _ => leaves l ++ leaves r

/-- BVH traversal (`Bvh::intersects`): reject when the ray misses the node's
box; otherwise query the left child, and on a left hit narrow the right
child's range to the left hit's distance. -/
def intersects (sq : ℚ → ℚ) : Geometry → Ray → ℚ → Qi → Option HitRecord
  | sphere s, ray, tmin, tmax => s.intersects sq ray tmin tmax
  | node l r box, ray, tmin, tmax =>
    if ¬box.intersects ray tmin tmax then none
    else
      match l.intersects sq ray tmin tmax with
      | none => r.intersects sq ray tmin tmax
      | some r1 => (r.intersects sq ray tmin (r1.dist : Qi)).or (some r1)

end Geometry

/-- Keeps the record at strictly smaller distance, the first one on ties, as
Rust's `Iterator::min_by` over `partial_cmp` on distances. -/
def minByDist (l : List HitRecord) : Option HitRecord :=
  l.foldl
    (fun acc r =>
      match acc with
      | none => some r
      | some a => if r.dist < a.dist then some r else some a)
    none

/-- Scene-level intersection (`CornellBox::intersects`): intersect every root
geometry and keep the nearest hit. -/
def sceneIntersects (sq : ℚ → ℚ) (root : List Geometry) (ray : Ray) (tmin : ℚ)
    (tmax : Qi) : Option HitRecord :=
  minByDist (root.filterMap (fun o => o.intersects sq ray tmin tmax))

/-- Brute-force linear scan over a primitive list: intersect every primitive
and keep the nearest hit (same nearest-hit selection as the scene root). -/
def linearScan (sq : ℚ → ℚ) (objs : List Sphere) (ray : Ray) (tmin : ℚ)
    (tmax : Qi) : Option HitRecord :=
  minByDist (objs.filterMap (fun s => s.intersects sq ray tmin tmax))

/-- Executable square root on `ℚ`, exact whenever numerator and denominator
are perfect squares; used to instantiate the `sq` oracle in witnesses. -/
def ratSqrt (q : ℚ) : ℚ :=
  (((List.range (q.num.toNat + 1)).filter fun k => k * k ≤ q.num.toNat).foldl max 0 : ℕ) /
    (((List.range (q.den + 1)).filter fun k => k * k ≤ q.den).foldl max 0 : ℕ)

/-! ### BVH construction (`Bvh::construct_recursive`)

The split constants `MIN_PRIMITIVES_FOR_SPLIT`, `MAX_DEPTH`, `TRAVERSAL_COST`
and `INTERSECTION_COST` live in `config::bvh`, which is not among the provided
sources; they are taken as parameters (`minSplit`, `maxD`, `tc`, `ic`), so
every theorem about construction holds for all values of these constants. -/
/-- Value of `f64::EPSILON`, i.e. `2⁻⁵²`. -/
def f64Eps : ℚ := 1 / 4503599627370496

/-- Sort key used by every BVH split: the bounding-box center along `axis`,
`(bounds.min[axis] + bounds.max[axis]) * 0.5`. -/
def centerVal (axis : Fin 3) (s : Sphere) : ℚ :=
  (s.boundingBox.min.nth axis + s.boundingBox.max.nth axis) * (1 / 2)

/-- Stable sort of the primitives by bounding-box center along an axis,
modelling `objects.sort_by(..)` with the `partial_cmp` comparator. -/
def sortByCenter (axis : Fin 3) (objs : List Sphere) : List Sphere :=
  objs.mergeSort (fun a b => decide (centerVal axis a ≤ centerVal axis b))

/-- Fold of `get_surrounding_aabb` over the boxes of a primitive list,
starting from the first primitive's box, as done for `total_bounds`,
`left_bounds` and `right_bounds` in `accelerator/bvh.rs`. -/
def totalBounds : List Sphere → Aabb
  | [] => ⟨0, 0⟩
  | s :: rest =>
    rest.foldl (fun b o => Aabb.getSurroundingAabb b o.boundingBox) s.boundingBox

/-- Accumulator of `find_best_split_simplified`: best axis, best split index,
best cost so far (`⊤` models the initial `f64::INFINITY`). -/
structure SplitState where
  bestAxis : Fin 3
  bestIndex : ℕ
  bestCost : Qi
deriving DecidableEq

/-- Evaluation of one candidate split position: skip the degenerate positions
`0` and `≥ len`, otherwise compute the SAH cost
`TRAVERSAL_COST + (lA/totA·lCount + rA/totA·rCount)·INTERSECTION_COST`
and keep the candidate when it is strictly cheaper. -/
def evalSplit (tc ic inv : ℚ) (sorted : List Sphere) (n : ℕ) (axis : Fin 3)
    (st : SplitState) (splitIndex : ℕ) : SplitState :=
  if splitIndex = 0 ∨ n ≤ splitIndex then st
  else
    let leftBounds := totalBounds (sorted.take splitIndex)
    let rightBounds := totalBounds (sorted.drop splitIndex)
    let cost := tc +
      (leftBounds.surfaceArea * inv * (splitIndex : ℚ) +
        rightBounds.surfaceArea * inv * ((n - splitIndex : ℕ) : ℚ)) * ic
    if (cost : Qi) < st.bestCost then ⟨axis, splitIndex, (cost : Qi)⟩ else st

/-- Candidate evaluation for one axis: skip degenerate axes, sort by the
axis, and test the three split positions `len/4`, `len/2`, `3·len/4`. -/
def axisPass (tc ic inv : ℚ) (objs : List Sphere) (extent : Vec3)
    (st : SplitState) (axis : Fin 3) : SplitState :=
  if extent.nth axis < f64Eps then st
  else
    let sorted := sortByCenter axis objs
    let n := objs.length
    [n / 4, n / 2, 3 * n / 4].foldl (evalSplit tc ic inv sorted n axis) st

/-- SAH split selection (`Bvh::find_best_split_simplified`): early exits for
degenerate total bounds, then the per-axis candidate evaluation. -/
def findBestSplitSimplified (tc ic : ℚ) (objs : List Sphere) : Fin 3 × ℕ :=
  let n := objs.length
  let bounds := totalBounds objs
  let extent := bounds.max - bounds.min
  if extent.x < f64Eps ∧ extent.y < f64Eps ∧ extent.z < f64Eps then (0, n / 2)
  else
    let totalArea := bounds.surfaceArea
    if totalArea < f64Eps then (0, n / 2)
    else
      let inv := 1 / totalArea
      let final := ([0, 1, 2] : List (Fin 3)).foldl
        (axisPass tc ic inv objs extent) ⟨0, n / 2, ⊤⟩
      (final.bestAxis, final.bestIndex)

/-- Placeholder primitive for the `unreachable!()` empty-input branch of the
source; never produced when the input list is nonempty. -/
def unreachableSphere : Sphere := ⟨0, 0, .Matte ⟨0, 0⟩ ⟨0, 0⟩⟩

/-- Recursive BVH construction (`Bvh::construct_recursive`).  The recursion
of the source is on strictly shrinking sublists; here it is driven by a fuel
argument that `constructRecursive` instantiates with the list length, which
the split-index bounds (proved below) show is always sufficient. -/
def constructRecAux (minSplit maxD : ℕ) (tc ic : ℚ) :
    ℕ → List Sphere → ℕ → Geometry
  | 0, _, _ => .sphere unreachableSphere
  | fuel + 1, objs, depth =>
    match objs with
    | [] => .sphere unreachableSphere
    | [s] => .sphere s
    | [s₁, s₂] =>
      .node (.sphere s₁) (.sphere s₂)
        (Aabb.getSurroundingAabb s₁.boundingBox s₂.boundingBox)
    | _ :: _ :: _ :: _ =>
      if objs.length < minSplit ∨ maxD ≤ depth then
        -- median_split: longest axis, sort, split at the middle
        let bounds := totalBounds objs
        let extent := bounds.max - bounds.min
        let axis : Fin 3 :=
          if extent.y < extent.x ∧ extent.z < extent.x then 0
          else if extent.z < extent.y then 1 else 2
        let sorted := sortByCenter axis objs
        let mid := sorted.length / 2
        let leftG := constructRecAux minSplit maxD tc ic fuel (sorted.take mid) (depth + 1)
        let rightG := constructRecAux minSplit maxD tc ic fuel (sorted.drop mid) (depth + 1)
        .node leftG rightG
          (Aabb.getSurroundingAabb leftG.boundingBox rightG.boundingBox)
      else
        -- SAH split
        let best := findBestSplitSimplified tc ic objs
        let sorted := sortByCenter best.1 objs
        let leftG := constructRecAux minSplit maxD tc ic fuel (sorted.take best.2) (depth + 1)
        let rightG := constructRecAux minSplit maxD tc ic fuel (sorted.drop best.2) (depth + 1)
        .node leftG rightG
          (Aabb.getSurroundingAabb leftG.boundingBox rightG.boundingBox)

/-- Entry point of the recursion, fuel instantiated with the list length. -/
def constructRecursive (minSplit maxD : ℕ) (tc ic : ℚ) (objs : List Sphere)
    (depth : ℕ) : Geometry :=
  constructRecAux minSplit maxD tc ic objs.length objs depth

/-- BVH construction entry point (`Bvh::construct`). -/
def construct (minSplit maxD : ℕ) (tc ic : ℚ) (objs : List Sphere) : Geometry :=
  constructRecursive minSplit maxD tc ic objs 0

namespace Aabb

/-! ### Bounding-box containment invariant -/
/-- Well-formedness of a box: `min ≤ max` on each axis. -/
def wf (b : Aabb) : Prop := ∀ i : Fin 3, b.min.nth i ≤ b.max.nth i

/-- Full containment of `inner` in `outer`: on each axis both corner
coordinates of `inner` lie within `outer`'s min/max bounds (so every corner
point of `inner` is inside `outer`). -/
def contains (outer inner : Aabb) : Prop :=
  ∀ i : Fin 3,
    outer.min.nth i ≤ inner.min.nth i ∧ inner.min.nth i ≤ outer.max.nth i ∧
    outer.min.nth i ≤ inner.max.nth i ∧ inner.max.nth i ≤ outer.max.nth i

instance (b : Aabb) : Decidable b.wf := by unfold wf; infer_instance

instance (outer inner : Aabb) : Decidable (contains outer inner) := by
  unfold contains; infer_instance

end Aabb

namespace Geometry

/-- Well-formedness of every box in a geometry tree. -/
def wfBoxes : Geometry → Prop
  | sphere s => s.boundingBox.wf
  | node l r box => box.wf ∧ wfBoxes l ∧ wfBoxes r

/-- Invariant of `Bvh` nodes: every internal node's box fully contains the
bounding boxes of both of its children, recursively. -/
def bvhInvariant : Geometry → Prop
  | sphere _ => True
  | node l r box =>
    Aabb.contains box l.boundingBox ∧ Aabb.contains box r.boundingBox ∧
    bvhInvariant l ∧ bvhInvariant r

instance : (g : Geometry) → Decidable g.wfBoxes
  | sphere _ => by unfold wfBoxes; infer_instance
  | node l r box =>
    have := instDecidableWfBoxes l
    have := instDecidableWfBoxes r
    by unfold wfBoxes; infer_instance

instance instDecidableBvhInvariant : (g : Geometry) → Decidable g.bvhInvariant
  | sphere _ => by unfold bvhInvariant; infer_instance
  | node l r box =>
    have := instDecidableBvhInvariant l
    have := instDecidableBvhInvariant r
    by unfold bvhInvariant; infer_instance

end Geometry

namespace Sphere

/-! ### Named quadratic quantities of the sphere intersection -/
/-- Vector from the ray origin to the sphere center (`oc` in the source). -/
def oc (s : Sphere) (ray : Ray) : Vec3 := ray.origin - s.center

/-- Coefficient `half_b = oc · dir`. -/
def halfB (s : Sphere) (ray : Ray) : ℚ := (s.oc ray).dot ray.dir

/-- Coefficient `c = oc · oc − radius²`. -/
def cQ (s : Sphere) (ray : Ray) : ℚ :=
  (s.oc ray).dot (s.oc ray) - s.radius * s.radius

/-- Discriminant `half_b² − a·c`. -/
def disc (s : Sphere) (ray : Ray) : ℚ :=
  s.halfB ray * s.halfB ray - ray.dir.dot ray.dir * s.cQ ray

/-- Nearer candidate root `(−half_b − √disc)/a`. -/
def tNear (sq : ℚ → ℚ) (s : Sphere) (ray : Ray) : ℚ :=
  (-s.halfB ray - sq (s.disc ray)) / ray.dir.dot ray.dir

/-- Farther candidate root `(−half_b + √disc)/a`. -/
def tFar (sq : ℚ → ℚ) (s : Sphere) (ray : Ray) : ℚ :=
  (-s.halfB ray + sq (s.disc ray)) / ray.dir.dot ray.dir

/-- Soundness of the square-root oracle at the discriminant of one
primitive/ray pair: whenever the discriminant is non-negative the oracle
returns its exact non-negative square root. -/
def sqSoundAt (sq : ℚ → ℚ) (s : Sphere) (ray : Ray) : Prop :=
  0 ≤ s.disc ray →
    0 ≤ sq (s.disc ray) ∧ sq (s.disc ray) * sq (s.disc ray) = s.disc ray

instance (sq : ℚ → ℚ) (s : Sphere) (ray : Ray) : Decidable (s.sqSoundAt sq ray) := by
  unfold sqSoundAt; infer_instance

end Sphere

/-- Membership of a point in a closed box. -/
def pointInBox (b : Aabb) (p : Vec3) : Prop :=
  ∀ i : Fin 3, b.min.nth i ≤ p.nth i ∧ p.nth i ≤ b.max.nth i

instance (b : Aabb) (p : Vec3) : Decidable (pointInBox b p) := by
  unfold pointInBox; infer_instance

/-- Distance projection of an optional hit. -/
def distOf : Option HitRecord → Option ℚ := Option.map (·.dist)

/-- Minimum of two optional distances (`none` is the identity). -/
def omin : Option ℚ → Option ℚ → Option ℚ
  | none, b => b
  | a, none => a
  | some x, some y => some (Min.min x y)

/-- Distance of the nearest hit of a primitive list: fold of `omin` over the
per-primitive hit distances. -/
def scanDist (sq : ℚ → ℚ) (objs : List Sphere) (ray : Ray) (tmin : ℚ)
    (tmax : Qi) : Option ℚ :=
  (objs.map fun s => distOf (s.intersects sq ray tmin tmax)).foldl omin none

/-- Restriction of an optional distance to values at most `c`. -/
def clampD (c : Qi) : Option ℚ → Option ℚ
  | some d => if (d : Qi) ≤ c then some d else none
  | none => none

namespace FP

/-- Ordering fact `q ≤ v` for an extended value `v` (false on NaN/−∞). -/
def leQ (q : ℚ) : FP → Prop
  | pinf => True
  | fin b => q ≤ b
  | _ => False

end FP

/-- Matte material used by concrete witness instantiations. -/
def demoMatte : Material := .Matte ⟨1, ⟨1, 1, 1⟩⟩ ⟨1, ⟨1, 1, 1⟩⟩

/-- Four primitives exercising the SAH construction path in witnesses. -/
def demoSpheres4 : List Sphere :=
  [⟨1, ⟨0, 0, 0⟩, demoMatte⟩, ⟨1, ⟨3, 0, 0⟩, demoMatte⟩,
   ⟨1, ⟨6, 1, 0⟩, demoMatte⟩, ⟨1, ⟨9, 0, 2⟩, demoMatte⟩]

/-- Unit spheres and a face-grazing axis ray for the C1 counterexample. -/
def c1Sphere1 : Sphere := ⟨1, ⟨0, 0, 0⟩, demoMatte⟩

def c1Sphere2 : Sphere := ⟨1, ⟨0, 0, 4⟩, demoMatte⟩

def c1FaceRay : Ray := ⟨⟨-1, 0, -10⟩, ⟨0, 0, 1⟩⟩

/-- Two spheres and a diagonal ray for the C1 witness. -/
def c1wSphere1 : Sphere := ⟨1, ⟨0, 0, 0⟩, demoMatte⟩

def c1wSphere2 : Sphere := ⟨1, ⟨4, 8, 8⟩, demoMatte⟩

def c1wRay : Ray := ⟨⟨-1, -2, -2⟩, ⟨1, 2, 2⟩⟩

/-! ### Characterisation of the slab test (C6) -/
/-- Per-axis acceptance condition of the slab test: on an axis with nonzero
direction the parametric point must lie between the planes; on an axis with
zero direction the origin must lie strictly between the planes, except in
the fully degenerate case `min = origin = max` (where the 0/0 NaNs make the
axis unconstrained). -/
def axisOk (b : Aabb) (r : Ray) (i : Fin 3) (t : ℚ) : Prop :=
  if r.dir.nth i = 0 then
    (b.min.nth i < r.origin.nth i ∧ r.origin.nth i < b.max.nth i) ∨
    (b.min.nth i = r.origin.nth i ∧ r.origin.nth i = b.max.nth i)
  else
    b.min.nth i ≤ r.origin.nth i + r.dir.nth i * t ∧
    r.origin.nth i + r.dir.nth i * t ≤ b.max.nth i

instance (b : Aabb) (r : Ray) (i : Fin 3) (t : ℚ) : Decidable (axisOk b r i t) := by
  unfold axisOk; exact instDecidableIte

/-- Geometric acceptance of the slab test with the boundary behaviour of the
implementation on zero-direction axes. -/
def slabPass (b : Aabb) (r : Ray) (tmin tmax : ℚ) : Prop :=
  ∃ t : ℚ, tmin ≤ t ∧ t ≤ tmax ∧ ∀ i : Fin 3, axisOk b r i t

/-- Literal reading of the claim: the ray's parametric line passes through
the (closed) box within the range. -/
def linePassesThroughBox (b : Aabb) (r : Ray) (tmin tmax : ℚ) : Prop :=
  ∃ t : ℚ, tmin ≤ t ∧ t ≤ tmax ∧ pointInBox b (r.getPoint t)

/-! ### Sampler (`sampler.rs`) and pinhole camera (`camera/pinhole.rs`)

Randomness (the jittered offsets and the per-call set skip) is supplied by
explicit oracle parameters; `f64` square roots again by `sq`. -/
/-- Executable integer square root (`num_integer::Roots::sqrt`), written as a
bounded search so concrete instances evaluate in the kernel. -/
def natSqrt (n : ℕ) : ℕ :=
  ((List.range (n + 1)).filter fun k => k * k ≤ n).foldl Max.max 0

/-- Sampler state: sample count, number of sample sets, precomputed pool. -/
structure Sampler where
  numSamples : ℕ
  numSets : ℕ
  samples : List (ℚ × ℚ)

namespace Sampler

/-- Construction (`Sampler::new`): 83 sets of `n×n` jittered points where
`n = isqrt(num_samples)`; the jitter for sample `(set, j, k)` comes from the
`jit` oracle, except that a single-sample sampler uses the cell center. -/
def new (jit : ℕ → ℚ × ℚ) (numSamples : ℕ) : Sampler :=
  let numSets := 83
  let n := natSqrt numSamples
  let samples := (List.range numSets).flatMap fun s =>
    (List.range n).flatMap fun j =>
      (List.range n).map fun k =>
        let dxy := if numSamples = 1 then ((1 : ℚ) / 2, (1 : ℚ) / 2)
          else jit ((s * n + j) * n + k)
        (((k : ℚ) + dxy.1) / (n : ℚ), ((j : ℚ) + dxy.2) / (n : ℚ))
  ⟨numSamples, numSets, samples⟩

/-- Sample count per pixel (`Sampler::count`). -/
def count (s : Sampler) : ℕ := s.numSamples

/-- Unit-square sample batch (`Sampler::unit_square`): skip a random number
of pool entries (the `skip` oracle draw, `< num_sets` in the source) and take
`count` points. -/
def unitSquare (s : Sampler) (skip : ℕ) : List (ℚ × ℚ) :=
  (s.samples.drop skip).take s.numSamples

/-- Batch as 2D points (`Sampler::square`); points are already pairs here. -/
def square (s : Sampler) (skip : ℕ) : List (ℚ × ℚ) := s.unitSquare skip

end Sampler

/-- Camera setting (`camera/setting.rs`). -/
structure Setting where
  up : Vec3
  eye : Vec3
  u : Vec3
  v : Vec3
  w : Vec3
  viewPlaneDistance : ℚ
  samplePointsSqrt : ℕ
  viewWidth : ℕ
  viewHeight : ℕ
  pixelSize : ℚ

/-- Pinhole camera (`camera/pinhole.rs`). -/
structure Pinhole where
  setting : Setting

namespace Pinhole

/-- One primary ray (`Pinhole::get_ray`): eye origin, normalised
`u·dx + v·dy − w·view_plane_distance` direction. -/
def getRay (sq : ℚ → ℚ) (c : Pinhole) (dir2 : ℚ × ℚ) : Ray :=
  Ray.mk c.setting.eye
    (Vec3.normalizeW sq
      (c.setting.u.smul dir2.1 + c.setting.v.smul dir2.2 -
        c.setting.w.smul c.setting.viewPlaneDistance))

/-- Primary-ray batch (`Pinhole::get_rays`): one ray per sampler point at
`origin − sample`. -/
def getRays (sq : ℚ → ℚ) (c : Pinhole) (origin : ℚ × ℚ) (sampler : Sampler)
    (skip : ℕ) : List Ray :=
  (sampler.square skip).map fun dp =>
    c.getRay sq (origin.1 - dp.1, origin.2 - dp.2)

end Pinhole

/-! ### Lights, materials and the generic shading loop (`light/`, `material/`)

The source dispatches lights and materials through trait objects holding a
back-reference to the renderer.  Lights are embedded as records of their
three trait methods over the hit context; the concrete light constructors
close over the scene data they need.  The generic `shade` of
`material/mod.rs` receives the material's responses as a record, with the
`m.reflective(hit)` value (precomputed once at the top of `shade` in the
source) supplied by the caller, because for Phong/Reflective materials it
recursively calls back into the renderer's `trace`. -/
/-- Shading context: the source `Hit` without the renderer and material
back-references (those are passed explicitly where needed). -/
structure HitCtx where
  ray : Ray
  hitPoint : Vec3
  normal : Vec3
  depth : ℕ
deriving DecidableEq

/-- A light as the record of its `Light` trait methods. -/
structure LightFns where
  getDirection : HitCtx → Vec3
  radiance : HitCtx → Color
  shadowAmount : HitCtx → ℚ

/-- A non-emissive material's responses as used by the generic `shade`. -/
structure MtlFns where
  ambient : Color
  diffuse : HitCtx → Vec3 → Color
  specular : HitCtx → Vec3 → Color
  reflective : Color

/-- Generic shading function (`material/mod.rs::shade`), translated
faithfully: ambient term, then the light loop with its three `continue`
tests, the per-light contribution — and the reflective contribution added
inside the loop whenever it is nonzero. -/
def shade (ambientLight : LightFns) (lights : List LightFns) (m : MtlFns)
    (hit : HitCtx) : Color :=
  let totalColor := m.ambient.compMul (ambientLight.radiance hit)
  let reflective := m.reflective
  let hasReflection := reflective ≠ Vec3.zeros
  lights.foldl
    (fun totalColor light =>
      let wi := light.getDirection hit
      let ndotwi := hit.normal.dot wi
      if ndotwi ≤ 0 then totalColor
      else
        let radiance := light.radiance hit
        if radiance = Vec3.zeros then totalColor
        else
          let shadow := light.shadowAmount hit
          if shadow = 0 then totalColor
          else
            let diffuse := m.diffuse hit wi
            let specular := m.specular hit wi
            let materialResponse := diffuse + specular
            let lightContribution := (radiance.smul shadow).smul ndotwi
            let totalColor := totalColor + materialResponse.compMul lightContribution
            if hasReflection then totalColor + reflective else totalColor)
    totalColor

/-- Shadow test shared by the light implementations (`light/mod.rs`):
offset the origin by `0.00001 * dir`, intersect the scene root over
`[0, t_max]`, and report shadow iff the nearest hit is non-emissive. -/
def inShadow (sq : ℚ → ℚ) (root : List Geometry) (hitPoint : Vec3) (dir : Vec3)
    (tMax : Qi) : Bool :=
  let offset := dir.smul (1 / 100000)
  let shadowRay := Ray.mk (hitPoint + offset) dir
  ((sceneIntersects sq root shadowRay 0 tMax).filter
    fun obj => !obj.material.emissive).isSome

/-- Literal reading of the claim's shadow condition: some root geometry has a
non-emissive intersection within the valid range. -/
def existsNonEmissiveHit (sq : ℚ → ℚ) (root : List Geometry) (ray : Ray)
    (tmin : ℚ) (tmax : Qi) : Bool :=
  root.any fun g =>
    match g.intersects sq ray tmin tmax with
    | some rec => !rec.material.emissive
    | none => false

/-- Directional light (`light/directional.rs`). -/
structure Directional where
  ls : ℚ
  cl : Color
  direction : Vec3
deriving DecidableEq

namespace Directional

/-- Fixed incoming direction. -/
def getDirection (d : Directional) (_hit : HitCtx) : Vec3 := d.direction

/-- Shadow attenuation: the source returns `1.0` unconditionally. -/
def shadowAmount (_d : Directional) (_hit : HitCtx) : ℚ := 1

/-- Radiance `cl * ls`. -/
def radiance (d : Directional) (_hit : HitCtx) : Color := d.cl.smul d.ls

end Directional

/-! ### Materials (deep model) and the recursive trace (`renderer.rs`) -/
/-- Oracles for the nonrational `f64` operations reached from `trace`:
square root, `powf`, and the sampler's (random) hemisphere sample consumed
by the glossy `sample_f`. -/
structure Oracles where
  sq : ℚ → ℚ
  powf : ℚ → ℚ → ℚ
  hemi : Vec3

instance : HDiv Vec3 ℚ Vec3 := ⟨fun v q => v.smul q⁻¹⟩

namespace GlossySpecular

/-- BRDF evaluation (`GlossySpecular::f`). -/
def f (ora : Oracles) (g : GlossySpecular) (hit : HitCtx) (wi : Vec3) : Color :=
  let wo := -hit.ray.dir
  let ndotwi := Max.max (hit.normal.dot wi) 0
  let r := hit.normal.smul (2 * ndotwi) - wi
  let rdotwo := r.dot wo
  if rdotwo ≤ 0 then Vec3.zeros
  else Vec3.repeat' (g.ks * ora.powf rdotwo g.exp)

/-- Sampling (`GlossySpecular::sample_f`): returns `(fr, wi, pdf)`; the
nalgebra vector comparison `wi < zeros` is component-wise. -/
def sampleF (ora : Oracles) (g : GlossySpecular) (hit : HitCtx) :
    Color × Vec3 × ℚ :=
  let wo := -hit.ray.dir
  let ndotwo := hit.normal.dot wo
  let r := hit.normal.smul (2 * ndotwo) - wo
  let w := r
  let u := Vec3.normalizeW ora.sq (Vec3.cross ⟨424 / 100000, 1, 764 / 100000⟩ w)
  let v := Vec3.cross u w
  let sp := ora.hemi
  let wi0 := u.smul sp.x + v.smul sp.y + w.smul sp.z
  let wi := if wi0.x < 0 ∧ wi0.y < 0 ∧ wi0.z < 0 then
      u.smul (-sp.x) - v.smul sp.y + w.smul sp.z
    else wi0
  let phongLobe := ora.powf (r.dot wi) g.exp
  let pdf := phongLobe * hit.normal.dot wi
  (g.cs.smul (g.ks * phongLobe), wi, pdf)

end GlossySpecular

/-- Sampling of the perfect mirror (`PerfectSpecular::sample_f`):
`cr * kr / (normal · wi)`. -/
def PerfectSpecular.sampleF (p : PerfectSpecular) (hit : HitCtx) (wi : Vec3) :
    Color :=
  (p.cr.smul p.kr) / hit.normal.dot wi

/-- Scene as consumed by the tracing core (`scene/cornell_box.rs`): view
size, camera, ambient light, light list, root geometry list. -/
structure Scene where
  viewWidth : ℕ
  viewHeight : ℕ
  camera : Pinhole
  ambientLight : LightFns
  lights : List LightFns
  root : List Geometry

/-- Renderer (`renderer.rs`): scene, sampler, recursion-depth limit, plus
the numeric oracles. -/
structure Renderer where
  scene : Scene
  sampler : Sampler
  maxDepth : ℕ
  ora : Oracles

/-- Rust's `f64::signum` on the values reached here (no NaN): `1` for
non-negative (including `+0.0`), `-1` for negative. -/
def signumQ (x : ℚ) : ℚ := if 0 ≤ x then 1 else -1

/-- Fuel-indexed recursive trace (`Renderer::trace`).  `none` means the fuel
ran out; `traceF_fuel_sufficient` shows `max_depth + 2 − depth` fuel always
suffices, which is the depth-bounded-termination argument.  Per material:
`Emissive` overrides `shade` to return its radiance; `Matte` has a zero
reflective term; `Phong` and `Reflective` compute their reflective
contribution by tracing a new ray at `depth + 1` — the only recursion. -/
def traceF : ℕ → Renderer → Ray → ℕ → Option Color
  | 0, _, _, _ => none
  | fuel + 1, r, ray, depth =>
    if r.maxDepth < depth then some Vec3.zeros
    else
      match sceneIntersects r.ora.sq r.scene.root ray 0 ⊤ with
      | none => some Vec3.zeros
      | some record =>
        let wo := -ray.dir
        -- revert normal if we hit the inside surface
        let adjustedNormal := record.normal.smul (signumQ (record.normal.dot wo))
        let hit : HitCtx := ⟨ray, record.hitPoint, adjustedNormal, depth⟩
        match record.material with
        | .Emissive ls ce => some (ce.smul ls)
        | .Matte _ diffuseBrdf =>
          some (shade r.scene.ambientLight r.scene.lights
            ⟨diffuseBrdf.rho, fun _ _ => diffuseBrdf.f, fun _ _ => Vec3.zeros,
              Vec3.zeros⟩ hit)
        | .Phong ambientBrdf diffuseBrdf specularBrdf =>
          let res := GlossySpecular.sampleF r.ora specularBrdf hit
          let reflectedRay := Ray.mk hit.hitPoint res.2.1
          (traceF fuel r reflectedRay (hit.depth + 1)).map fun c =>
            shade r.scene.ambientLight r.scene.lights
              ⟨ambientBrdf.rho, fun _ _ => diffuseBrdf.f,
                fun h wi => GlossySpecular.f r.ora specularBrdf h wi,
                ((c.compMul res.1).smul (hit.normal.dot res.2.1)) / res.2.2⟩ hit
        | .Reflective ambientBrdf diffuseBrdf specularBrdf reflectiveBrdf =>
          let ndotwo := hit.normal.dot (-hit.ray.dir)
          let wi := hit.normal.smul (2 * ndotwo) - -hit.ray.dir
          let fr := PerfectSpecular.sampleF reflectiveBrdf hit wi
          let reflectedRay := Ray.mk hit.hitPoint wi
          (traceF fuel r reflectedRay (hit.depth + 1)).map fun c =>
            shade r.scene.ambientLight r.scene.lights
              ⟨ambientBrdf.rho, fun _ _ => diffuseBrdf.f,
                fun h wi2 => GlossySpecular.f r.ora specularBrdf h wi2,
                (c.compMul fr).smul (hit.normal.dot wi)⟩ hit

/-- Total trace used by `render`, at the provably sufficient fuel. -/
def Renderer.trace (r : Renderer) (ray : Ray) (depth : ℕ) : Color :=
  (traceF (r.maxDepth + 2 - depth) r ray depth).getD Vec3.zeros

/-- Fuel-indexed core of `slice::chunks`: consecutive chunks of `n`
elements, the last possibly shorter; the fuel (the list length at the top
call) only bounds the recursion. -/
def chunksOfAux {α : Type} (n : ℕ) : ℕ → List α → List (List α)
  | 0, _ => []
  | _ + 1, [] => []
  | fuel + 1, a :: l => (a :: l).take n :: chunksOfAux n fuel ((a :: l).drop n)

/-- `slice::chunks(n)` over lists (the source only calls it with `n ≥ 1`). -/
def chunksOf {α : Type} (n : ℕ) (l : List α) : List (List α) :=
  chunksOfAux n l.length l

/-- The per-pixel inner loop of `Renderer::render`: pixel `n`'s row-major
image-plane coordinates, one primary ray per sampler point
(`camera.get_rays`, with the random set skip supplied by the `skips`
oracle), each traced at depth `0`. -/
def Renderer.pixelSamples (r : Renderer) (skips : ℕ → ℕ) (n : ℕ) :
    List Color :=
  let width := r.scene.viewWidth
  let pixelSize := r.scene.camera.setting.pixelSize
  let i := pixelSize * (((n % width : ℕ) : ℚ) - (width : ℚ) / 2)
  let j := pixelSize * (((n / width : ℕ) : ℚ) - (r.scene.viewHeight : ℚ) / 2)
  (r.scene.camera.getRays r.ora.sq (i, j) r.sampler (skips n)).map
    fun ray => r.trace ray 0

/-- `Renderer::render`, sequentialised: pixel indices are split into
per-thread chunks (`rayon`'s ordered parallel collect keeps chunk order, so
the parallel map is a plain map); each chunk traces all its pixels' samples
into one flat buffer, then regroups that buffer into `samples_per_pixel`
chunks and averages each; the chunk results are flattened. -/
def Renderer.render (r : Renderer) (numThreads : ℕ) (skips : ℕ → ℕ) :
    List Color :=
  let totalPixels := r.scene.viewWidth * r.scene.viewHeight
  let samplesPerPixel := r.sampler.count
  let pixelsPerThread := (totalPixels + numThreads - 1) / numThreads
  ((chunksOf pixelsPerThread (List.range totalPixels)).map
    fun (pixelIndices : List ℕ) =>
      (chunksOf samplesPerPixel
          (pixelIndices.flatMap (r.pixelSamples skips))).map
        fun (samples : List Color) =>
          HDiv.hDiv (samples.foldl (· + ·) Vec3.zeros)
            (r.sampler.count : ℚ)).flatten

/-- The intended per-pixel result: pixel `n`'s traced sample colors summed
and divided by the configured sample count. -/
def Renderer.pixelColor (r : Renderer) (skips : ℕ → ℕ) (n : ℕ) : Color :=
  HDiv.hDiv ((r.pixelSamples skips n).foldl (· + ·) Vec3.zeros)
    (r.sampler.count : ℚ)

/-- Unit box, a face ray, and an interior ray for the C6 instances. -/
def c6Box : Aabb := ⟨⟨0, 0, 0⟩, ⟨1, 1, 1⟩⟩

def c6FaceRay : Ray := ⟨⟨0, 1 / 2, -1⟩, ⟨0, 0, 1⟩⟩

def c6InteriorRay : Ray := ⟨⟨1 / 2, 1 / 2, -1⟩, ⟨0, 0, 1⟩⟩

/-! ### Concrete scenes and instances for the shading/lighting/trace claims -/
/-- Oracle bundle for concrete evaluations: exact rational square root,
zero `powf`, upward hemisphere sample. -/
def demoOracles : Oracles := ⟨ratSqrt, fun _ _ => 0, ⟨0, 0, 1⟩⟩

/-- A simple camera setting: axis-aligned frame, eye at the origin. -/
def demoSetting : Setting :=
  ⟨⟨0, 1, 0⟩, ⟨0, 0, 0⟩, ⟨1, 0, 0⟩, ⟨0, 1, 0⟩, ⟨0, 0, 1⟩, 1, 1, 2, 1, 1⟩

def demoCamera : Pinhole := ⟨demoSetting⟩

/-- Ambient light with unit radiance everywhere. -/
def demoAmbientLight : LightFns := ⟨fun _ => Vec3.zeros, fun _ => ⟨1, 1, 1⟩, fun _ => 1⟩

/-- One matte sphere in front of the camera. -/
def demoScene : Scene :=
  ⟨2, 1, demoCamera, demoAmbientLight, [], [.sphere ⟨1, ⟨0, 0, 5⟩, demoMatte⟩]⟩

/-- Single-sample sampler (uses the cell-center path of `Sampler::new`). -/
def demoSampler : Sampler := Sampler.new (fun _ => (1 / 2, 1 / 2)) 1

/-- Renderer over the demo scene with the default `max_depth = 5`. -/
def demoRenderer : Renderer := ⟨demoScene, demoSampler, 5, demoOracles⟩

/-- C2: ambient light with zero radiance, so the ambient term vanishes. -/
def c2Ambient : LightFns := ⟨fun _ => Vec3.zeros, fun _ => Vec3.zeros, fun _ => 1⟩

/-- C2: a light that passes all three skip tests at `c2Hit`. -/
def c2Light : LightFns := ⟨fun _ => ⟨0, 0, 1⟩, fun _ => ⟨1, 1, 1⟩, fun _ => 1⟩

/-- C2: material responses with zero ambient/diffuse/specular and a nonzero
precomputed reflective contribution `(1,0,0)`. -/
def c2Mtl : MtlFns :=
  ⟨Vec3.zeros, fun _ _ => Vec3.zeros, fun _ _ => Vec3.zeros, ⟨1, 0, 0⟩⟩

/-- C2: hit with normal `(0,0,1)` facing the light. -/
def c2Hit : HitCtx := ⟨⟨⟨0, 0, 0⟩, ⟨0, 0, -1⟩⟩, ⟨0, 0, 0⟩, ⟨0, 0, 1⟩, 0⟩

/-- Emissive demo material. -/
def demoEmissive : Material := .Emissive 1 ⟨1, 1, 1⟩

/-- C4: an emissive sphere in front of a matte occluder along `+z`. -/
def c4Root : List Geometry :=
  [.sphere ⟨1, ⟨0, 0, 5⟩, demoEmissive⟩, .sphere ⟨1, ⟨0, 0, 10⟩, demoMatte⟩]

/-- C5: a directional light shining along `+z`. -/
def c5Light : Directional := ⟨1, ⟨1, 1, 1⟩, ⟨0, 0, 1⟩⟩

/-- C5: a matte occluder between the hit point and the light direction. -/
def c5Root : List Geometry := [.sphere ⟨1, ⟨0, 0, 5⟩, demoMatte⟩]

/-- C5: a hit at the origin. -/
def c5Hit : HitCtx := ⟨⟨⟨0, 0, -2⟩, ⟨0, 0, 1⟩⟩, ⟨0, 0, 0⟩, ⟨0, 0, -1⟩, 0⟩

/-- C7: the 2×1 counterexample configuration: two samples per pixel, empty
scene, and the sampler's random per-pixel set skip drawing `82`. -/
def c7Sampler : Sampler := Sampler.new (fun _ => (1 / 2, 1 / 2)) 2

def c7Scene : Scene := ⟨2, 1, demoCamera, demoAmbientLight, [], []⟩

def c7Renderer : Renderer := ⟨c7Scene, c7Sampler, 5, demoOracles⟩

/-- C7 witness configuration: 1×1 image, one sample, skip `0`. -/
def c7wSampler : Sampler := Sampler.new (fun _ => (1 / 2, 1 / 2)) 1

def c7wScene : Scene := ⟨1, 1, demoCamera, demoAmbientLight, [], []⟩

def c7wRenderer : Renderer := ⟨c7wScene, c7wSampler, 5, demoOracles⟩

/-! ## Theorems -/

namespace Vec3

@[simp] theorem zeros_def : zeros = ⟨0, 0, 0⟩ := rfl

@[simp] theorem add_x (a b : Vec3) : (a + b).x = a.x + b.x := rfl

@[simp] theorem add_y (a b : Vec3) : (a + b).y = a.y + b.y := rfl

@[simp] theorem add_z (a b : Vec3) : (a + b).z = a.z + b.z := rfl

@[simp] theorem sub_x (a b : Vec3) : (a - b).x = a.x - b.x := rfl

@[simp] theorem sub_y (a b : Vec3) : (a - b).y = a.y - b.y := rfl

@[simp] theorem sub_z (a b : Vec3) : (a - b).z = a.z - b.z := rfl

@[simp] theorem neg_x (a : Vec3) : (-a).x = -a.x := rfl

@[simp] theorem neg_y (a : Vec3) : (-a).y = -a.y := rfl

@[simp] theorem neg_z (a : Vec3) : (-a).z = -a.z := rfl

@[simp] theorem smul_x (a : Vec3) (s : ℚ) : (a.smul s).x = a.x * s := rfl

@[simp] theorem smul_y (a : Vec3) (s : ℚ) : (a.smul s).y = a.y * s := rfl

@[simp] theorem smul_z (a : Vec3) (s : ℚ) : (a.smul s).z = a.z * s := rfl

@[simp] theorem compMul_x (a b : Vec3) : (a.compMul b).x = a.x * b.x := rfl

@[simp] theorem compMul_y (a b : Vec3) : (a.compMul b).y = a.y * b.y := rfl

@[simp] theorem compMul_z (a b : Vec3) : (a.compMul b).z = a.z * b.z := rfl

@[simp] theorem repeat_x (s : ℚ) : (repeat' s).x = s := rfl

@[simp] theorem repeat_y (s : ℚ) : (repeat' s).y = s := rfl

@[simp] theorem repeat_z (s : ℚ) : (repeat' s).z = s := rfl

@[simp] theorem zero_x : (0 : Vec3).x = 0 := rfl

@[simp] theorem zero_y : (0 : Vec3).y = 0 := rfl

@[simp] theorem zero_z : (0 : Vec3).z = 0 := rfl

@[simp] theorem nth_add (a b : Vec3) (i : Fin 3) :
    (a + b).nth i = a.nth i + b.nth i := by fin_cases i <;> rfl

@[simp] theorem nth_sub (a b : Vec3) (i : Fin 3) :
    (a - b).nth i = a.nth i - b.nth i := by fin_cases i <;> rfl

@[simp] theorem nth_neg (a : Vec3) (i : Fin 3) : (-a).nth i = -(a.nth i) := by
  fin_cases i <;> rfl

@[simp] theorem nth_smul (a : Vec3) (s : ℚ) (i : Fin 3) :
    (a.smul s).nth i = a.nth i * s := by fin_cases i <;> rfl

@[simp] theorem nth_repeat (s : ℚ) (i : Fin 3) : (repeat' s).nth i = s := by
  fin_cases i <;> rfl

@[simp] theorem nth_zero (i : Fin 3) : (0 : Vec3).nth i = 0 := by
  fin_cases i <;> rfl

theorem dot_eq_sum_nth (a b : Vec3) :
    dot a b = a.nth 0 * b.nth 0 + a.nth 1 * b.nth 1 + a.nth 2 * b.nth 2 := rfl

theorem eq_iff_nth (a b : Vec3) : a = b ↔ ∀ i : Fin 3, a.nth i = b.nth i := by
  constructor
  · intro h i; rw [h]
  · intro h
    cases a; cases b
    have h0 := h 0; have h1 := h 1; have h2 := h 2
    simp only [nth] at h0 h1 h2
    simp_all

end Vec3

namespace Aabb

theorem nth_surrounding_min (a b : Aabb) (i : Fin 3) :
    (getSurroundingAabb a b).min.nth i = Min.min (a.min.nth i) (b.min.nth i) := by
  fin_cases i <;> rfl

theorem nth_surrounding_max (a b : Aabb) (i : Fin 3) :
    (getSurroundingAabb a b).max.nth i = Max.max (a.max.nth i) (b.max.nth i) := by
  fin_cases i <;> rfl

/-- A well-formed box is contained in any surrounding box built from it. -/
theorem contains_surrounding_left (a b : Aabb) (ha : a.wf) :
    contains (getSurroundingAabb a b) a := by
  intro i
  rw [nth_surrounding_min, nth_surrounding_max]
  have h := ha i
  exact ⟨min_le_left _ _, le_trans h (le_max_left _ _),
    le_trans (min_le_left _ _) h, le_max_left _ _⟩

theorem contains_surrounding_right (a b : Aabb) (hb : b.wf) :
    contains (getSurroundingAabb a b) b := by
  intro i
  rw [nth_surrounding_min, nth_surrounding_max]
  have h := hb i
  exact ⟨min_le_right _ _, le_trans h (le_max_right _ _),
    le_trans (min_le_right _ _) h, le_max_right _ _⟩

/-- The surrounding box of two well-formed boxes is well-formed. -/
theorem wf_surrounding (a b : Aabb) (ha : a.wf) : (getSurroundingAabb a b).wf := by
  intro i
  rw [nth_surrounding_min, nth_surrounding_max]
  exact le_trans (le_trans (min_le_left _ _) (ha i)) (le_max_left _ _)

end Aabb

/-- Bounding box of a non-negative-radius sphere is well-formed. -/
theorem Sphere.wf_boundingBox (s : Sphere) (h : 0 ≤ s.radius) : s.boundingBox.wf := by
  intro i
  show (s.center - Vec3.repeat' s.radius).nth i ≤ (s.center + Vec3.repeat' s.radius).nth i
  simp only [Vec3.nth_sub, Vec3.nth_add, Vec3.nth_repeat]
  linarith

namespace Geometry

theorem wfBoxes_boundingBox {g : Geometry} (h : g.wfBoxes) : g.boundingBox.wf := by
  cases g with
  | sphere s => exact h
  | node l r box => exact h.1

end Geometry

/-- Fold preservation helper: a property preserved by each step holds for the
fold result. -/
theorem foldlPreserves {α β : Type} (P : β → Prop) (f : β → α → β)
    (h : ∀ b a, P b → P (f b a)) : ∀ (l : List α) (b : β), P b → P (l.foldl f b) := by
  intro l
  induction l with
  | nil => intro b hb; exact hb
  | cons a t ih => intro b hb; exact ih (f b a) (h b a hb)

theorem length_sortByCenter (axis : Fin 3) (objs : List Sphere) :
    (sortByCenter axis objs).length = objs.length :=
  List.length_mergeSort objs

theorem perm_sortByCenter (axis : Fin 3) (objs : List Sphere) :
    (sortByCenter axis objs).Perm objs :=
  List.mergeSort_perm objs _

/-- Split index returned by the SAH selection is always a genuine split:
at least 1 and strictly less than the number of objects. -/
theorem findBestSplitSimplified_bounds (tc ic : ℚ) (objs : List Sphere)
    (h2 : 2 ≤ objs.length) :
    1 ≤ (findBestSplitSimplified tc ic objs).2 ∧
      (findBestSplitSimplified tc ic objs).2 < objs.length := by
  have hn0 : 0 < objs.length := by omega
  have hhalf1 : 1 ≤ objs.length / 2 := by omega
  have hhalf2 : objs.length / 2 < objs.length := Nat.div_lt_self hn0 (by norm_num)
  have hfold : ∀ (extent : Vec3) (inv : ℚ) (st : SplitState),
      (1 ≤ st.bestIndex ∧ st.bestIndex < objs.length) →
      1 ≤ (([0, 1, 2] : List (Fin 3)).foldl
            (axisPass tc ic inv objs extent) st).bestIndex ∧
        (([0, 1, 2] : List (Fin 3)).foldl
            (axisPass tc ic inv objs extent) st).bestIndex < objs.length := by
    intro extent inv st hst
    refine foldlPreserves
      (fun b => 1 ≤ b.bestIndex ∧ b.bestIndex < objs.length) _ ?_ _ st hst
    intro b a hb
    unfold axisPass
    split
    · exact hb
    · refine foldlPreserves
        (fun b => 1 ≤ b.bestIndex ∧ b.bestIndex < objs.length) _ ?_ _ b hb
      intro b' a' hb'
      suffices h : ∀ q : SplitState,
          evalSplit tc ic inv (sortByCenter a objs) objs.length a b' a' = q →
          1 ≤ q.bestIndex ∧ q.bestIndex < objs.length from h _ rfl
      intro q hq
      unfold evalSplit at hq
      simp only at hq
      split at hq
      · rw [← hq]; exact hb'
      · rename_i hcond
        push_neg at hcond
        split at hq
        · rw [← hq]; exact ⟨by simp; omega, by simp; omega⟩
        · rw [← hq]; exact hb'
  suffices h : ∀ q : Fin 3 × ℕ, findBestSplitSimplified tc ic objs = q →
      1 ≤ q.2 ∧ q.2 < objs.length from h _ rfl
  intro q hq
  unfold findBestSplitSimplified at hq
  simp only at hq
  split at hq
  · rw [← hq]; exact ⟨hhalf1, hhalf2⟩
  · split at hq
    · rw [← hq]; exact ⟨hhalf1, hhalf2⟩
    · rw [← hq]
      exact hfold _ _ ⟨0, objs.length / 2, ⊤⟩ ⟨hhalf1, hhalf2⟩

/-- Main construction induction: for a nonempty list of primitives with
non-negative radii and sufficient fuel, the built tree has well-formed boxes,
satisfies the parent-contains-children invariant on every path, and its
leaves are a permutation of the input primitives. -/
theorem constructRecAux_spec (minSplit maxD : ℕ) (tc ic : ℚ) :
    ∀ (fuel : ℕ) (objs : List Sphere) (depth : ℕ), objs ≠ [] →
      objs.length ≤ fuel → (∀ s ∈ objs, 0 ≤ s.radius) →
      (constructRecAux minSplit maxD tc ic fuel objs depth).wfBoxes ∧
      (constructRecAux minSplit maxD tc ic fuel objs depth).bvhInvariant ∧
      (constructRecAux minSplit maxD tc ic fuel objs depth).leaves.Perm objs := by
  intro fuel
  induction fuel with
  | zero =>
    intro objs depth hne hlen _
    exact absurd (List.length_eq_zero.mp (by omega)) hne
  | succ fuel ih =>
    intro objs depth hne hlen hrad
    match objs with
    | [] => exact absurd rfl hne
    | [s] =>
      refine ⟨Sphere.wf_boundingBox s (hrad s (by simp)), trivial, ?_⟩
      simp [constructRecAux, Geometry.leaves]
    | [s₁, s₂] =>
      have hw₁ : s₁.boundingBox.wf := Sphere.wf_boundingBox s₁ (hrad s₁ (by simp))
      have hw₂ : s₂.boundingBox.wf := Sphere.wf_boundingBox s₂ (hrad s₂ (by simp))
      refine ⟨⟨Aabb.wf_surrounding _ _ hw₁, hw₁, hw₂⟩,
        ⟨Aabb.contains_surrounding_left _ _ hw₁,
         Aabb.contains_surrounding_right _ _ hw₂, trivial, trivial⟩, ?_⟩
      simp [constructRecAux, Geometry.leaves]
    | s₁ :: s₂ :: s₃ :: rest =>
      have hn3 : 3 ≤ (s₁ :: s₂ :: s₃ :: rest).length := by simp
      have key : ∀ (axis : Fin 3) (idx : ℕ), 1 ≤ idx →
          idx < (s₁ :: s₂ :: s₃ :: rest).length →
          ∀ box2 : Aabb,
          box2 = Aabb.getSurroundingAabb
              (constructRecAux minSplit maxD tc ic fuel
                ((sortByCenter axis (s₁ :: s₂ :: s₃ :: rest)).take idx)
                (depth + 1)).boundingBox
              (constructRecAux minSplit maxD tc ic fuel
                ((sortByCenter axis (s₁ :: s₂ :: s₃ :: rest)).drop idx)
                (depth + 1)).boundingBox →
          (Geometry.node
              (constructRecAux minSplit maxD tc ic fuel
                ((sortByCenter axis (s₁ :: s₂ :: s₃ :: rest)).take idx) (depth + 1))
              (constructRecAux minSplit maxD tc ic fuel
                ((sortByCenter axis (s₁ :: s₂ :: s₃ :: rest)).drop idx) (depth + 1))
              box2).wfBoxes ∧
          (Geometry.node
              (constructRecAux minSplit maxD tc ic fuel
                ((sortByCenter axis (s₁ :: s₂ :: s₃ :: rest)).take idx) (depth + 1))
              (constructRecAux minSplit maxD tc ic fuel
                ((sortByCenter axis (s₁ :: s₂ :: s₃ :: rest)).drop idx) (depth + 1))
              box2).bvhInvariant ∧
          (Geometry.node
              (constructRecAux minSplit maxD tc ic fuel
                ((sortByCenter axis (s₁ :: s₂ :: s₃ :: rest)).take idx) (depth + 1))
              (constructRecAux minSplit maxD tc ic fuel
                ((sortByCenter axis (s₁ :: s₂ :: s₃ :: rest)).drop idx) (depth + 1))
              box2).leaves.Perm (s₁ :: s₂ :: s₃ :: rest) := by
        intro axis idx hidx1 hidxn box2 hbox2
        have hsortlen := length_sortByCenter axis (s₁ :: s₂ :: s₃ :: rest)
        have hsortperm := perm_sortByCenter axis (s₁ :: s₂ :: s₃ :: rest)
        have hradsort : ∀ s ∈ sortByCenter axis (s₁ :: s₂ :: s₃ :: rest), 0 ≤ s.radius :=
          fun s hs => hrad s (hsortperm.mem_iff.mp hs)
        have htake_len :
            ((sortByCenter axis (s₁ :: s₂ :: s₃ :: rest)).take idx).length = idx := by
          rw [List.length_take]; omega
        have hdrop_len :
            ((sortByCenter axis (s₁ :: s₂ :: s₃ :: rest)).drop idx).length =
              (s₁ :: s₂ :: s₃ :: rest).length - idx := by
          rw [List.length_drop]; omega
        have htake_ne : (sortByCenter axis (s₁ :: s₂ :: s₃ :: rest)).take idx ≠ [] := by
          refine List.length_pos.mp ?_; rw [htake_len]; omega
        have hdrop_ne : (sortByCenter axis (s₁ :: s₂ :: s₃ :: rest)).drop idx ≠ [] := by
          refine List.length_pos.mp ?_; rw [hdrop_len]; omega
        have hLl := ih ((sortByCenter axis (s₁ :: s₂ :: s₃ :: rest)).take idx)
          (depth + 1) htake_ne (by omega)
          (fun s hs => hradsort s (List.mem_of_mem_take hs))
        have hRr := ih ((sortByCenter axis (s₁ :: s₂ :: s₃ :: rest)).drop idx)
          (depth + 1) hdrop_ne (by omega)
          (fun s hs => hradsort s (List.mem_of_mem_drop hs))
        have hwl := Geometry.wfBoxes_boundingBox hLl.1
        have hwr := Geometry.wfBoxes_boundingBox hRr.1
        subst hbox2
        refine ⟨⟨Aabb.wf_surrounding _ _ hwl, hLl.1, hRr.1⟩,
          ⟨Aabb.contains_surrounding_left _ _ hwl,
           Aabb.contains_surrounding_right _ _ hwr, hLl.2.1, hRr.2.1⟩, ?_⟩
        have hperm2 : ((constructRecAux minSplit maxD tc ic fuel
              ((sortByCenter axis (s₁ :: s₂ :: s₃ :: rest)).take idx) (depth + 1)).leaves ++
            (constructRecAux minSplit maxD tc ic fuel
              ((sortByCenter axis (s₁ :: s₂ :: s₃ :: rest)).drop idx) (depth + 1)).leaves).Perm
            (sortByCenter axis (s₁ :: s₂ :: s₃ :: rest)) := by
          have hp := hLl.2.2.append hRr.2.2
          rwa [List.take_append_drop] at hp
        exact hperm2.trans hsortperm
      simp only [constructRecAux]
      split
      · -- median split path
        refine key _ _ ?_ ?_ _ rfl
        · simp only [length_sortByCenter, List.length_cons]; omega
        · simp only [length_sortByCenter, List.length_cons]; omega
      · -- SAH split path
        have hb := findBestSplitSimplified_bounds tc ic (s₁ :: s₂ :: s₃ :: rest) (by simp)
        exact key _ _ hb.1 hb.2 _ rfl

namespace Sphere

theorem intersects_eq (sq : ℚ → ℚ) (s : Sphere) (ray : Ray) (tmin : ℚ) (tmax : Qi) :
    s.intersects sq ray tmin tmax =
      if s.disc ray < 0 then none
      else if s.tNear sq ray < tmin ∨ tmax < (s.tNear sq ray : Qi) then
        if s.tFar sq ray < tmin ∨ tmax < (s.tFar sq ray : Qi) then none
        else some ⟨s.tFar sq ray, ray.getPoint (s.tFar sq ray),
          s.normal sq (ray.getPoint (s.tFar sq ray)), s.material⟩
      else some ⟨s.tNear sq ray, ray.getPoint (s.tNear sq ray),
        s.normal sq (ray.getPoint (s.tNear sq ray)), s.material⟩ := rfl

theorem tNear_le_tFar {sq : ℚ → ℚ} {s : Sphere} {ray : Ray}
    (ha : 0 < ray.dir.dot ray.dir) (hsq : 0 ≤ sq (s.disc ray)) :
    s.tNear sq ray ≤ s.tFar sq ray := by
  unfold tNear tFar
  gcongr
  linarith

theorem intersects_mem_range {sq : ℚ → ℚ} {s : Sphere} {ray : Ray} {tmin : ℚ}
    {tmax : Qi} {rec : HitRecord}
    (h : s.intersects sq ray tmin tmax = some rec) :
    tmin ≤ rec.dist ∧ (rec.dist : Qi) ≤ tmax := by
  rw [intersects_eq] at h
  split_ifs at h with h1 h2 h3 <;> cases h
  all_goals first
  | (push_neg at h3; exact h3)
  | (push_neg at h2; exact h2)

theorem intersects_narrow {sq : ℚ → ℚ} {s : Sphere} {ray : Ray} {tmin : ℚ}
    {tmax : Qi} (ha : 0 < ray.dir.dot ray.dir) (hsound : s.sqSoundAt sq ray)
    (tmax' : Qi) (hle : tmax' ≤ tmax) :
    s.intersects sq ray tmin tmax' =
      match s.intersects sq ray tmin tmax with
      | some rec => if (rec.dist : Qi) ≤ tmax' then some rec else none
      | none => none := by
  rw [intersects_eq, intersects_eq]
  by_cases hd : s.disc ray < 0
  · simp [hd]
  · have hsq : 0 ≤ sq (s.disc ray) := (hsound (not_lt.mp hd)).1
    have hNF : s.tNear sq ray ≤ s.tFar sq ray := tNear_le_tFar ha hsq
    have hNFc : (s.tNear sq ray : Qi) ≤ (s.tFar sq ray : Qi) :=
      WithTop.coe_le_coe.mpr hNF
    simp only [if_neg hd]
    by_cases h1 : s.tNear sq ray < tmin ∨ tmax < (s.tNear sq ray : Qi)
    · by_cases h2 : s.tFar sq ray < tmin ∨ tmax < (s.tFar sq ray : Qi)
      · -- both roots rejected in the wide range: rejected in the narrow one too
        rw [if_pos h1, if_pos h2]
        have h1' : s.tNear sq ray < tmin ∨ tmax' < (s.tNear sq ray : Qi) := by
          rcases h1 with h | h
          · exact Or.inl h
          · exact Or.inr (lt_of_le_of_lt hle h)
        have h2' : s.tFar sq ray < tmin ∨ tmax' < (s.tFar sq ray : Qi) := by
          rcases h2 with h | h
          · exact Or.inl h
          · exact Or.inr (lt_of_le_of_lt hle h)
        rw [if_pos h1', if_pos h2']
      · -- far root accepted in the wide range
        rw [if_pos h1, if_neg h2]
        have h1' : s.tNear sq ray < tmin ∨ tmax' < (s.tNear sq ray : Qi) := by
          rcases h1 with h | h
          · exact Or.inl h
          · exact Or.inr (lt_of_le_of_lt hle h)
        rw [if_pos h1']
        simp only
        by_cases hF : (s.tFar sq ray : Qi) ≤ tmax'
        · rw [if_pos hF, if_neg]
          push_neg at h2
          exact fun hcon => hcon.elim (fun hlt => absurd h2.1 (not_le.mpr hlt))
            (fun hlt => absurd hF (not_le.mpr hlt))
        · rw [if_neg hF, if_pos]
          exact Or.inr (not_le.mp hF)
    · -- near root accepted in the wide range
      rw [if_neg h1]
      simp only
      push_neg at h1
      by_cases hN : (s.tNear sq ray : Qi) ≤ tmax'
      · rw [if_pos hN, if_neg]
        exact fun hcon => hcon.elim (fun hlt => absurd h1.1 (not_le.mpr hlt))
          (fun hlt => absurd hN (not_le.mpr hlt))
      · have hN' : tmax' < (s.tNear sq ray : Qi) := not_le.mp hN
        rw [if_pos (Or.inr hN'), if_pos (Or.inr (lt_of_lt_of_le hN' hNFc)),
          if_neg hN]

end Sphere

/-- Quadratic-root identity: any of the two closed-form roots solves the
quadratic when the supplied square root is exact. -/
theorem root_sq_eq {A B C S : ℚ} (hA : A ≠ 0) (hS : S * S = B * B - A * C) :
    ∀ t : ℚ, (t = (-B - S) / A ∨ t = (-B + S) / A) →
      A * (t * t) + 2 * B * t + C = 0 := by
  intro t ht
  rcases ht with h | h <;> subst h <;> field_simp <;>
    linear_combination A ^ 2 * hS

namespace Sphere

/-- Expansion of the squared distance from a ray point to the center. -/
theorem getPoint_sub_center_sq (s : Sphere) (ray : Ray) (t : ℚ) :
    (ray.getPoint t - s.center).dot (ray.getPoint t - s.center) =
      (s.oc ray).dot (s.oc ray) + 2 * t * s.halfB ray +
        t * t * ray.dir.dot ray.dir := by
  simp only [Ray.getPoint, Sphere.oc, Sphere.halfB, Vec3.dot, Vec3.sub_x,
    Vec3.sub_y, Vec3.sub_z, Vec3.add_x, Vec3.add_y, Vec3.add_z, Vec3.smul_x,
    Vec3.smul_y, Vec3.smul_z]
  ring

/-- Every returned hit lies exactly on the sphere surface (exact-sqrt
oracle). -/
theorem intersects_on_sphere {sq : ℚ → ℚ} {s : Sphere} {ray : Ray} {tmin : ℚ}
    {tmax : Qi} {rec : HitRecord} (ha : 0 < ray.dir.dot ray.dir)
    (hsound : s.sqSoundAt sq ray)
    (h : s.intersects sq ray tmin tmax = some rec) :
    (ray.getPoint rec.dist - s.center).dot (ray.getPoint rec.dist - s.center) =
      s.radius * s.radius := by
  have key : ∀ t : ℚ, (t = s.tNear sq ray ∨ t = s.tFar sq ray) →
      ¬s.disc ray < 0 →
      (ray.getPoint t - s.center).dot (ray.getPoint t - s.center) =
        s.radius * s.radius := by
    intro t ht hd
    obtain ⟨hs0, hs2⟩ := hsound (not_lt.mp hd)
    have hq := root_sq_eq (A := ray.dir.dot ray.dir) (B := s.halfB ray)
      (C := s.cQ ray) (S := sq (s.disc ray)) (ne_of_gt ha)
      (by rw [hs2]; unfold disc; ring) t
      (by rcases ht with h | h <;> [left; right] <;> rw [h] <;> rfl)
    rw [getPoint_sub_center_sq]
    have hc : s.cQ ray = (s.oc ray).dot (s.oc ray) - s.radius * s.radius := rfl
    nlinarith [hq]
  rw [intersects_eq] at h
  split_ifs at h with h1 h2 h3 <;> cases h
  · exact key _ (Or.inr rfl) h1
  · exact key _ (Or.inl rfl) h1

/-- Every returned hit point lies inside the sphere's bounding box. -/
theorem intersects_point_in_box {sq : ℚ → ℚ} {s : Sphere} {ray : Ray} {tmin : ℚ}
    {tmax : Qi} {rec : HitRecord} (ha : 0 < ray.dir.dot ray.dir)
    (hsound : s.sqSoundAt sq ray) (hr : 0 ≤ s.radius)
    (h : s.intersects sq ray tmin tmax = some rec) :
    pointInBox s.boundingBox (ray.getPoint rec.dist) := by
  have hons := intersects_on_sphere ha hsound h
  set p := ray.getPoint rec.dist with hp
  have hcomp : (p.x - s.center.x) * (p.x - s.center.x) +
      (p.y - s.center.y) * (p.y - s.center.y) +
      (p.z - s.center.z) * (p.z - s.center.z) = s.radius * s.radius := by
    have : (p - s.center).dot (p - s.center) =
        (p.x - s.center.x) * (p.x - s.center.x) +
        (p.y - s.center.y) * (p.y - s.center.y) +
        (p.z - s.center.z) * (p.z - s.center.z) := by
      simp [Vec3.dot]
    rw [← this]
    exact hons
  intro i
  show (s.center - Vec3.repeat' s.radius).nth i ≤ p.nth i ∧
    p.nth i ≤ (s.center + Vec3.repeat' s.radius).nth i
  simp only [Vec3.nth_sub, Vec3.nth_add, Vec3.nth_repeat]
  fin_cases i <;> simp only [Vec3.nth] <;> constructor <;>
    nlinarith [hcomp, sq_nonneg (p.x - s.center.x), sq_nonneg (p.y - s.center.y),
      sq_nonneg (p.z - s.center.z), hr]

end Sphere

namespace Aabb

/-- Conservativeness core: if the parametric point at `d` lies inside every
remaining slab and the running interval still brackets `d`, the slab loop
accepts (rays with nonzero direction components on the remaining axes). -/
theorem slabLoop_true_of_point (b : Aabb) (r : Ray) (d : ℚ) :
    ∀ (axes : List (Fin 3)) (a : ℚ) (tb : FP), a ≤ d → FP.leQ d tb →
      (∀ i ∈ axes, r.dir.nth i ≠ 0) →
      (∀ i ∈ axes,
        b.min.nth i ≤ (r.getPoint d).nth i ∧ (r.getPoint d).nth i ≤ b.max.nth i) →
      slabLoop b r axes (FP.fin a) tb = true := by
  intro axes
  induction axes with
  | nil => intro a tb _ _ _ _; rfl
  | cons i rest ihl =>
    intro a tb had hdtb hdir hin
    have hdiri : r.dir.nth i ≠ 0 := hdir i (by simp)
    have hini := hin i (by simp)
    have hpt : (r.getPoint d).nth i = r.origin.nth i + r.dir.nth i * d := by
      show (r.origin + r.dir.smul d).nth i = _
      simp
    rw [hpt] at hini
    set q1 := (b.min.nth i - r.origin.nth i) / r.dir.nth i with hq1
    set q2 := (b.max.nth i - r.origin.nth i) / r.dir.nth i with hq2
    have hlow : Min.min q1 q2 ≤ d := by
      rcases lt_or_gt_of_ne hdiri with hneg | hpos
      · refine le_trans (min_le_right _ _) ?_
        rw [hq2, div_le_iff_of_neg hneg]
        linarith [hini.2]
      · refine le_trans (min_le_left _ _) ?_
        rw [hq1, div_le_iff₀ hpos]
        linarith [hini.1]
    have hhigh : d ≤ Max.max q1 q2 := by
      rcases lt_or_gt_of_ne hdiri with hneg | hpos
      · refine le_trans ?_ (le_max_left _ _)
        rw [hq1, le_div_iff_of_neg hneg]
        linarith [hini.1]
      · refine le_trans ?_ (le_max_right _ _)
        rw [hq2, le_div_iff₀ hpos]
        linarith [hini.2]
    show slabLoop b r (i :: rest) (FP.fin a) tb = true
    rw [slabLoop]
    simp only [FP.div, if_neg hdiri]
    rw [← hq1, ← hq2]
    have hmin : FP.fpMin (FP.fin q1) (FP.fin q2) = FP.fin (Min.min q1 q2) := rfl
    have hmax : FP.fpMax (FP.fin q1) (FP.fin q2) = FP.fin (Max.max q1 q2) := rfl
    rw [hmin, hmax]
    have hfpmax : FP.fpMax (FP.fin (Min.min q1 q2)) (FP.fin a) =
        FP.fin (Max.max (Min.min q1 q2) a) := rfl
    rw [hfpmax]
    cases tb with
    | nan => exact absurd hdtb (by simp [FP.leQ])
    | ninf => exact absurd hdtb (by simp [FP.leQ])
    | pinf =>
      have : FP.fpMin (FP.fin (Max.max q1 q2)) FP.pinf = FP.fin (Max.max q1 q2) := rfl
      rw [this]
      have hguard : FP.fpLt (FP.fin (Max.max q1 q2))
          (FP.fin (Max.max (Min.min q1 q2) a)) = false := by
        simp only [FP.fpLt, decide_eq_false_iff_not, not_lt]
        exact le_trans (max_le hlow had) hhigh
      rw [if_neg (by rw [hguard]; exact Bool.false_ne_true)]
      exact ihl (Max.max (Min.min q1 q2) a) (FP.fin (Max.max q1 q2))
        (max_le hlow had) hhigh (fun j hj => hdir j (by simp [hj]))
        (fun j hj => hin j (by simp [hj]))
    | fin bq =>
      have hdbq : d ≤ bq := hdtb
      have : FP.fpMin (FP.fin (Max.max q1 q2)) (FP.fin bq) =
          FP.fin (Min.min (Max.max q1 q2) bq) := rfl
      rw [this]
      have hguard : FP.fpLt (FP.fin (Min.min (Max.max q1 q2) bq))
          (FP.fin (Max.max (Min.min q1 q2) a)) = false := by
        simp only [FP.fpLt, decide_eq_false_iff_not, not_lt]
        exact le_trans (max_le hlow had) (le_min hhigh hdbq)
      rw [if_neg (by rw [hguard]; exact Bool.false_ne_true)]
      exact ihl (Max.max (Min.min q1 q2) a) (FP.fin (Min.min (Max.max q1 q2) bq))
        (max_le hlow had) (le_min hhigh hdbq) (fun j hj => hdir j (by simp [hj]))
        (fun j hj => hin j (by simp [hj]))

/-- Conservativeness of the slab test: a ray with nonzero direction
components whose point at some in-range parameter `d` lies in the (closed)
box is always accepted. -/
theorem intersects_true_of_point (b : Aabb) (r : Ray) (tmin : ℚ) (tmax : Qi)
    (d : ℚ) (hdir : ∀ i : Fin 3, r.dir.nth i ≠ 0) (h1 : tmin ≤ d)
    (h2 : (d : Qi) ≤ tmax) (hin : pointInBox b (r.getPoint d)) :
    b.intersects r tmin tmax = true := by
  refine slabLoop_true_of_point b r d [0, 1, 2] tmin (FP.ofQi tmax) h1 ?_
    (fun i _ => hdir i) (fun i _ => hin i)
  cases tmax with
  | none => exact trivial
  | some q => exact WithTop.coe_le_coe.mp h2

/-! ### Containment and Option-min machinery for BVH/scan equivalence -/
/-- A point of a contained box is a point of the containing box. -/
theorem pointInBox_of_contains {outer inner : Aabb} {p : Vec3}
    (h : contains outer inner) (hp : pointInBox inner p) : pointInBox outer p :=
  fun i => ⟨le_trans (h i).1 (hp i).1, le_trans (hp i).2 (h i).2.2.2⟩

theorem contains_refl {b : Aabb} (hb : b.wf) : contains b b :=
  fun i => ⟨le_refl _, hb i, hb i, le_refl _⟩

theorem contains_trans {a b c : Aabb} (h1 : contains a b) (h2 : contains b c) :
    contains a c := fun i =>
  ⟨le_trans (h1 i).1 (h2 i).1, le_trans (h2 i).2.1 (h1 i).2.2.2,
   le_trans (h1 i).1 (h2 i).2.2.1, le_trans (h2 i).2.2.2 (h1 i).2.2.2⟩

end Aabb

/-- In an invariant-satisfying tree, every leaf's bounding box is contained in
the tree's root bounding box. -/
theorem Geometry.leaves_contained {g : Geometry} (hwf : g.wfBoxes)
    (hinv : g.bvhInvariant) :
    ∀ s ∈ g.leaves, Aabb.contains g.boundingBox s.boundingBox := by
  induction g with
  | sphere s₀ =>
    intro s hs
    simp only [leaves, List.mem_singleton] at hs
    subst hs
    exact Aabb.contains_refl hwf
  | node l r box ihl ihr =>
    intro s hs
    simp only [leaves, List.mem_append] at hs
    rcases hs with hs | hs
    · exact Aabb.contains_trans hinv.1 (ihl hwf.2.1 hinv.2.2.1 s hs)
    · exact Aabb.contains_trans hinv.2.1 (ihr hwf.2.2 hinv.2.2.2 s hs)

@[simp] theorem omin_none_left (a : Option ℚ) : omin none a = a := by
  cases a <;> rfl

@[simp] theorem omin_none_right (a : Option ℚ) : omin a none = a := by
  cases a <;> rfl

theorem omin_comm (a b : Option ℚ) : omin a b = omin b a := by
  cases a <;> cases b <;> simp [omin, min_comm]

theorem omin_assoc (a b c : Option ℚ) :
    omin (omin a b) c = omin a (omin b c) := by
  cases a <;> cases b <;> cases c <;> simp [omin, min_assoc]

theorem foldl_omin_cons_out (a : Option ℚ) (l : List (Option ℚ)) :
    l.foldl omin a = omin a (l.foldl omin none) := by
  induction l generalizing a with
  | nil => simp
  | cons x t ih =>
    show (t.foldl omin (omin a x)) = omin a ((t.foldl omin (omin none x)))
    rw [ih (omin a x), ih (omin none x), omin_none_left, omin_assoc]

theorem foldl_omin_append (l₁ l₂ : List (Option ℚ)) :
    (l₁ ++ l₂).foldl omin none =
      omin (l₁.foldl omin none) (l₂.foldl omin none) := by
  rw [List.foldl_append, foldl_omin_cons_out]

theorem foldl_omin_perm {l₁ l₂ : List (Option ℚ)} (h : l₁.Perm l₂) :
    ∀ a : Option ℚ, l₁.foldl omin a = l₂.foldl omin a := by
  induction h with
  | nil => intro a; rfl
  | cons x _ ih => intro a; exact ih (omin a x)
  | swap x y t =>
    intro a
    show t.foldl omin (omin (omin a y) x) = t.foldl omin (omin (omin a x) y)
    rw [omin_assoc, omin_assoc, omin_comm y x]
  | trans _ _ ih₁ ih₂ => intro a; rw [ih₁ a, ih₂ a]

/-- Distance of the step of `min_by`: keeps the smaller distance. -/
theorem distOf_minByStep (acc : Option HitRecord) (r : HitRecord) :
    distOf (match acc with
      | none => some r
      | some a => if r.dist < a.dist then some r else some a) =
      omin (distOf acc) (some r.dist) := by
  cases acc with
  | none => rfl
  | some a =>
    by_cases h : r.dist < a.dist
    · simp [distOf, h, omin, min_eq_right (le_of_lt h)]
    · simp [distOf, h, omin, min_eq_left (not_lt.mp h)]

/-- Distance view of the `filter_map` + `min_by` nearest-hit selection as a
fold of `omin` over the per-element hit distances. -/
theorem distOf_minByDist_filterMap {α : Type} (f : α → Option HitRecord) :
    ∀ (l : List α) (acc : Option HitRecord),
      distOf ((l.filterMap f).foldl
        (fun acc r => match acc with
          | none => some r
          | some a => if r.dist < a.dist then some r else some a) acc) =
      (l.map fun x => distOf (f x)).foldl omin (distOf acc) := by
  intro l
  induction l with
  | nil => intro acc; rfl
  | cons s t ih =>
    intro acc
    cases hfs : f s with
    | none =>
      rw [List.filterMap_cons_none hfs, List.map_cons, List.foldl_cons, hfs]
      rw [ih acc]
      simp [distOf]
    | some r =>
      rw [List.filterMap_cons_some hfs, List.foldl_cons, ih, List.map_cons,
        List.foldl_cons, hfs, distOf_minByStep]
      simp [distOf]

/-- The linear scan's nearest-hit distance is the `omin`-fold of the
per-primitive hit distances. -/
theorem distOf_linearScan (sq : ℚ → ℚ) (objs : List Sphere) (ray : Ray)
    (tmin : ℚ) (tmax : Qi) :
    distOf (linearScan sq objs ray tmin tmax) = scanDist sq objs ray tmin tmax := by
  unfold linearScan minByDist scanDist
  rw [distOf_minByDist_filterMap]
  rfl

theorem scanDist_nil (sq : ℚ → ℚ) (ray : Ray) (tmin : ℚ) (tmax : Qi) :
    scanDist sq [] ray tmin tmax = none := rfl

theorem scanDist_cons (sq : ℚ → ℚ) (s : Sphere) (t : List Sphere) (ray : Ray)
    (tmin : ℚ) (tmax : Qi) :
    scanDist sq (s :: t) ray tmin tmax =
      omin (distOf (s.intersects sq ray tmin tmax)) (scanDist sq t ray tmin tmax) := by
  unfold scanDist
  rw [List.map_cons, List.foldl_cons, omin_none_left, foldl_omin_cons_out]

theorem scanDist_singleton (sq : ℚ → ℚ) (s : Sphere) (ray : Ray) (tmin : ℚ)
    (tmax : Qi) :
    scanDist sq [s] ray tmin tmax = distOf (s.intersects sq ray tmin tmax) := by
  rw [scanDist_cons, scanDist_nil, omin_none_right]

theorem scanDist_append (sq : ℚ → ℚ) (l₁ l₂ : List Sphere) (ray : Ray)
    (tmin : ℚ) (tmax : Qi) :
    scanDist sq (l₁ ++ l₂) ray tmin tmax =
      omin (scanDist sq l₁ ray tmin tmax) (scanDist sq l₂ ray tmin tmax) := by
  unfold scanDist
  rw [List.map_append, foldl_omin_append]

theorem scanDist_perm (sq : ℚ → ℚ) {l₁ l₂ : List Sphere} (h : l₁.Perm l₂)
    (ray : Ray) (tmin : ℚ) (tmax : Qi) :
    scanDist sq l₁ ray tmin tmax = scanDist sq l₂ ray tmin tmax :=
  foldl_omin_perm (h.map _) none

/-- Fold version of closure of a predicate under minima. -/
theorem foldl_omin_some_prop (P : ℚ → Prop)
    (hmin : ∀ x y, P x → P y → P (Min.min x y)) :
    ∀ (l : List (Option ℚ)) (a : Option ℚ), (∀ d, a = some d → P d) →
      (∀ o ∈ l, ∀ d, o = some d → P d) → ∀ d, l.foldl omin a = some d → P d := by
  intro l
  induction l with
  | nil => intro a ha _ d hd; exact ha d hd
  | cons x t ih =>
    intro a ha hl d hd
    refine ih (omin a x) ?_ (fun o ho => hl o (by simp [ho])) d hd
    intro e he
    cases hax : a with
    | none =>
      rw [hax, omin_none_left] at he
      exact hl x (by simp) e he
    | some da =>
      cases hx : x with
      | none => rw [hax, hx, omin_none_right] at he; exact ha e (hax.trans he)
      | some dx =>
        rw [hax, hx] at he
        cases he
        exact hmin da dx (ha da hax) (hl x (by simp) dx hx)

/-- Any distance produced by the scan lies in the query range. -/
theorem scanDist_range {sq : ℚ → ℚ} {objs : List Sphere} {ray : Ray} {tmin : ℚ}
    {tmax : Qi} {d : ℚ} (h : scanDist sq objs ray tmin tmax = some d) :
    tmin ≤ d ∧ (d : Qi) ≤ tmax := by
  refine foldl_omin_some_prop (fun d => tmin ≤ d ∧ (d : Qi) ≤ tmax) ?_ _ none
    (by simp) ?_ d h
  · intro x y hx hy
    rcases le_total x y with hxy | hxy
    · rwa [min_eq_left hxy]
    · rwa [min_eq_right hxy]
  · intro o ho e he
    rw [List.mem_map] at ho
    obtain ⟨s, _, rfl⟩ := ho
    obtain ⟨rec, hrec, rfl⟩ := Option.map_eq_some'.mp he
    exact Sphere.intersects_mem_range hrec

/-- A successful scan exhibits a primitive with a successful intersection. -/
theorem scanDist_exists_hit {sq : ℚ → ℚ} {objs : List Sphere} {ray : Ray}
    {tmin : ℚ} {tmax : Qi} {d : ℚ}
    (h : scanDist sq objs ray tmin tmax = some d) :
    ∃ s ∈ objs, ∃ rec, s.intersects sq ray tmin tmax = some rec := by
  have key : ∀ (l : List (Option ℚ)) (a : Option ℚ) (d : ℚ),
      l.foldl omin a = some d → a ≠ none ∨ ∃ o ∈ l, o ≠ none := by
    intro l
    induction l with
    | nil =>
      intro a d hd
      rw [List.foldl_nil] at hd
      exact Or.inl (by rw [hd]; simp)
    | cons x t ih =>
      intro a d hd
      rw [List.foldl_cons] at hd
      rcases ih (omin a x) d hd with hax | ⟨o, ho, hne⟩
      · by_cases hx : x = none
        · cases ha : a with
          | some da => exact Or.inl (by simp [ha])
          | none => rw [ha, hx] at hax; exact absurd rfl hax
        · exact Or.inr ⟨x, List.mem_cons_self x t, hx⟩
      · exact Or.inr ⟨o, List.mem_cons_of_mem x ho, hne⟩
  unfold scanDist at h
  rcases key _ none d h with hn | ⟨o, ho, hne⟩
  · exact absurd rfl hn
  · rw [List.mem_map] at ho
    obtain ⟨s, hs, rfl⟩ := ho
    cases hrec : s.intersects sq ray tmin tmax with
    | none => rw [hrec] at hne; exact absurd (rfl : (none : Option ℚ) = none) hne
    | some rec => exact ⟨s, hs, rec, hrec⟩

theorem clampD_omin (c : Qi) (a b : Option ℚ) :
    clampD c (omin a b) = omin (clampD c a) (clampD c b) := by
  cases a with
  | none => simp [clampD]
  | some x =>
    cases b with
    | none => simp [clampD]
    | some y =>
      show clampD c (some (Min.min x y)) = omin (clampD c (some x)) (clampD c (some y))
      by_cases hx : (x : Qi) ≤ c <;> by_cases hy : (y : Qi) ≤ c
      · have : ((Min.min x y : ℚ) : Qi) ≤ c := by
          rcases le_total x y with hxy | hxy
          · rwa [min_eq_left hxy]
          · rwa [min_eq_right hxy]
        simp [clampD, hx, hy, this, omin]
      · have hyx : y > x := by
          by_contra hcon
          exact hy (le_trans (WithTop.coe_le_coe.mpr (not_lt.mp hcon)) hx)
        have hm : Min.min x y = x := min_eq_left (le_of_lt hyx)
        simp [clampD, hx, hy, hm, omin]
      · have hxy : x > y := by
          by_contra hcon
          exact hx (le_trans (WithTop.coe_le_coe.mpr (not_lt.mp hcon)) hy)
        have hm : Min.min x y = y := min_eq_right (le_of_lt hxy)
        simp [clampD, hx, hy, hm, omin]
      · have : ¬((Min.min x y : ℚ) : Qi) ≤ c := by
          rcases le_total x y with hxy | hxy
          · rwa [min_eq_left hxy]
          · rwa [min_eq_right hxy]
        simp [clampD, hx, hy, this, omin]

theorem distOf_intersects_narrow {sq : ℚ → ℚ} {s : Sphere} {ray : Ray}
    {tmin : ℚ} {tmax : Qi} (ha : 0 < ray.dir.dot ray.dir)
    (hsound : s.sqSoundAt sq ray) (tmax' : Qi) (hle : tmax' ≤ tmax) :
    distOf (s.intersects sq ray tmin tmax') =
      clampD tmax' (distOf (s.intersects sq ray tmin tmax)) := by
  rw [Sphere.intersects_narrow ha hsound tmax' hle]
  cases s.intersects sq ray tmin tmax with
  | none => rfl
  | some rec =>
    show distOf (if (rec.dist : Qi) ≤ tmax' then some rec else none) =
      clampD tmax' (some rec.dist)
    by_cases h : (rec.dist : Qi) ≤ tmax' <;> simp [h, clampD, distOf]

/-- Narrowing the scan's upper bound clamps the scan result. -/
theorem scanDist_narrow {sq : ℚ → ℚ} {objs : List Sphere} {ray : Ray}
    {tmin : ℚ} {tmax : Qi} (ha : 0 < ray.dir.dot ray.dir)
    (hsound : ∀ s ∈ objs, s.sqSoundAt sq ray) (tmax' : Qi) (hle : tmax' ≤ tmax) :
    scanDist sq objs ray tmin tmax' =
      clampD tmax' (scanDist sq objs ray tmin tmax) := by
  induction objs with
  | nil => rfl
  | cons s t ih =>
    rw [scanDist_cons, scanDist_cons, clampD_omin,
      distOf_intersects_narrow ha (hsound s (by simp)) tmax' hle,
      ih (fun x hx => hsound x (by simp [hx]))]

/-- Positivity of `dir · dir` for a direction with nonzero components. -/
theorem dot_self_pos_of_nonzero {v : Vec3} (h : ∀ i : Fin 3, v.nth i ≠ 0) :
    0 < v.dot v := by
  have h0 : v.x ≠ 0 := h 0
  have hx : 0 < v.x * v.x := mul_self_pos.mpr h0
  have hy : 0 ≤ v.y * v.y := mul_self_nonneg _
  have hz : 0 ≤ v.z * v.z := mul_self_nonneg _
  unfold Vec3.dot
  linarith

/-- Core equivalence: on an invariant-satisfying tree, for a ray whose
direction has no zero component and an exact square-root oracle, the
traversal's nearest-hit distance equals the `omin`-fold of the leaf hit
distances over any query range. -/
theorem traversal_scanDist (sq : ℚ → ℚ) (ray : Ray)
    (hdir : ∀ i : Fin 3, ray.dir.nth i ≠ 0) :
    ∀ g : Geometry, g.wfBoxes → g.bvhInvariant →
      (∀ s ∈ g.leaves, s.sqSoundAt sq ray) → (∀ s ∈ g.leaves, 0 ≤ s.radius) →
      ∀ (tmin : ℚ) (tmax : Qi),
        distOf (g.intersects sq ray tmin tmax) =
          scanDist sq g.leaves ray tmin tmax := by
  have ha : 0 < ray.dir.dot ray.dir := dot_self_pos_of_nonzero hdir
  intro g
  induction g with
  | sphere s =>
    intro _ _ _ _ tmin tmax
    show distOf (s.intersects sq ray tmin tmax) = scanDist sq [s] ray tmin tmax
    rw [scanDist_singleton]
  | node l r box ihl ihr =>
    intro hwf hinv hsound hrad tmin tmax
    have hsoundl : ∀ s ∈ l.leaves, s.sqSoundAt sq ray := fun s hs =>
      hsound s (by simp [Geometry.leaves, hs])
    have hsoundr : ∀ s ∈ r.leaves, s.sqSoundAt sq ray := fun s hs =>
      hsound s (by simp [Geometry.leaves, hs])
    have hradl : ∀ s ∈ l.leaves, 0 ≤ s.radius := fun s hs =>
      hrad s (by simp [Geometry.leaves, hs])
    have hradr : ∀ s ∈ r.leaves, 0 ≤ s.radius := fun s hs =>
      hrad s (by simp [Geometry.leaves, hs])
    show distOf (if ¬box.intersects ray tmin tmax then none
      else match l.intersects sq ray tmin tmax with
        | none => r.intersects sq ray tmin tmax
        | some r1 => (r.intersects sq ray tmin (r1.dist : Qi)).or (some r1)) =
      scanDist sq (l.leaves ++ r.leaves) ray tmin tmax
    by_cases hbox : box.intersects ray tmin tmax = true
    · rw [if_neg (by simp [hbox])]
      cases hL : l.intersects sq ray tmin tmax with
      | none =>
        have hscanl : scanDist sq l.leaves ray tmin tmax = none := by
          rw [← ihl hwf.2.1 hinv.2.2.1 hsoundl hradl tmin tmax, hL]
          rfl
        rw [scanDist_append, hscanl, omin_none_left]
        exact ihr hwf.2.2 hinv.2.2.2 hsoundr hradr tmin tmax
      | some r1 =>
        dsimp only
        have hscanl : scanDist sq l.leaves ray tmin tmax = some r1.dist := by
          rw [← ihl hwf.2.1 hinv.2.2.1 hsoundl hradl tmin tmax, hL]
          rfl
        have hrange1 := scanDist_range hscanl
        have hIHr := ihr hwf.2.2 hinv.2.2.2 hsoundr hradr tmin (r1.dist : Qi)
        have hnarrow : scanDist sq r.leaves ray tmin (r1.dist : Qi) =
            clampD (r1.dist : Qi) (scanDist sq r.leaves ray tmin tmax) :=
          scanDist_narrow ha hsoundr (r1.dist : Qi) hrange1.2
        rw [scanDist_append, hscanl]
        cases hscanr : scanDist sq r.leaves ray tmin tmax with
        | none =>
          have hnone : distOf (r.intersects sq ray tmin (r1.dist : Qi)) = none := by
            rw [hIHr, hnarrow, hscanr]
            rfl
          have : r.intersects sq ray tmin (r1.dist : Qi) = none :=
            Option.map_eq_none'.mp hnone
          rw [this]
          rfl
        | some d2 =>
          by_cases hle2 : (d2 : Qi) ≤ (r1.dist : Qi)
          · have hsome : distOf (r.intersects sq ray tmin (r1.dist : Qi)) = some d2 := by
              rw [hIHr, hnarrow, hscanr]
              simp [clampD, hle2]
            obtain ⟨rec2, hrec2, hrec2d⟩ := Option.map_eq_some'.mp hsome
            rw [hrec2]
            show distOf (some rec2) = omin (some r1.dist) (some d2)
            have hd2le : d2 ≤ r1.dist := WithTop.coe_le_coe.mp hle2
            simp [distOf, hrec2d, omin, min_eq_right hd2le]
          · have hnone : distOf (r.intersects sq ray tmin (r1.dist : Qi)) = none := by
              rw [hIHr, hnarrow, hscanr]
              simp [clampD, hle2]
            have : r.intersects sq ray tmin (r1.dist : Qi) = none :=
              Option.map_eq_none'.mp hnone
            rw [this]
            show distOf (some r1) = omin (some r1.dist) (some d2)
            have hlt : r1.dist ≤ d2 :=
              WithTop.coe_le_coe.mp (le_of_lt (not_le.mp hle2))
            simp [distOf, omin, min_eq_left hlt]
    · -- the node box was rejected: no leaf can have a hit
      rw [if_pos (by simp [hbox])]
      cases hscan : scanDist sq (l.leaves ++ r.leaves) ray tmin tmax with
      | none => rfl
      | some d =>
        exfalso
        obtain ⟨s, hs, rec, hrec⟩ := scanDist_exists_hit hscan
        have hrange := Sphere.intersects_mem_range hrec
        have hpt := Sphere.intersects_point_in_box ha
          (hsound s (by simpa [Geometry.leaves] using hs))
          (hrad s (by simpa [Geometry.leaves] using hs)) hrec
        have hcont := Geometry.leaves_contained hwf hinv s
          (by simpa [Geometry.leaves] using hs)
        have hpt2 : pointInBox box (ray.getPoint rec.dist) :=
          Aabb.pointInBox_of_contains hcont hpt
        exact hbox (Aabb.intersects_true_of_point box ray tmin tmax rec.dist
          hdir hrange.1 hrange.2 hpt2)

namespace FP

theorem div_zero_pos {x : ℚ} (h : 0 < x) : div x 0 = pinf := by
  simp [div, h]

theorem div_zero_neg {x : ℚ} (h : x < 0) : div x 0 = ninf := by
  simp [div, h, not_lt.mpr (le_of_lt h)]

theorem div_zero_zero : div (0 : ℚ) 0 = nan := by simp [div]

theorem div_of_ne {x d : ℚ} (h : d ≠ 0) : div x d = fin (x / d) := by
  simp [div, h]

end FP

/-- Interval reading of the per-axis condition on a nonzero-direction axis:
the point is within the slab iff the parameter lies between the two plane
parameters. -/
theorem axisOk_iff_mem {b : Aabb} {r : Ray} {i : Fin 3} {t : ℚ}
    (hdi : r.dir.nth i ≠ 0) (hwfi : b.min.nth i ≤ b.max.nth i) :
    axisOk b r i t ↔
      Min.min ((b.min.nth i - r.origin.nth i) / r.dir.nth i)
          ((b.max.nth i - r.origin.nth i) / r.dir.nth i) ≤ t ∧
        t ≤ Max.max ((b.min.nth i - r.origin.nth i) / r.dir.nth i)
          ((b.max.nth i - r.origin.nth i) / r.dir.nth i) := by
  unfold axisOk
  rw [if_neg hdi]
  set q1 := (b.min.nth i - r.origin.nth i) / r.dir.nth i with hq1
  set q2 := (b.max.nth i - r.origin.nth i) / r.dir.nth i with hq2
  have hcomm := mul_comm (r.dir.nth i) t
  rcases lt_or_gt_of_ne hdi with hneg | hpos
  · have hq21 : q2 ≤ q1 := by
      rw [hq1, hq2, div_le_div_right_of_neg hneg]
      linarith
    have e1 : b.min.nth i ≤ r.origin.nth i + r.dir.nth i * t ↔ t ≤ q1 := by
      rw [hq1, le_div_iff_of_neg hneg]
      constructor <;> intro h <;> linarith
    have e2 : r.origin.nth i + r.dir.nth i * t ≤ b.max.nth i ↔ q2 ≤ t := by
      rw [hq2, div_le_iff_of_neg hneg]
      constructor <;> intro h <;> linarith
    rw [e1, e2, min_eq_right hq21, max_eq_left hq21, and_comm]
  · have hq12 : q1 ≤ q2 := by
      rw [hq1, hq2, div_le_div_iff_of_pos_right hpos]
      linarith
    have e1 : b.min.nth i ≤ r.origin.nth i + r.dir.nth i * t ↔ q1 ≤ t := by
      rw [hq1, div_le_iff₀ hpos]
      constructor <;> intro h <;> linarith
    have e2 : r.origin.nth i + r.dir.nth i * t ≤ b.max.nth i ↔ t ≤ q2 := by
      rw [hq2, le_div_iff₀ hpos]
      constructor <;> intro h <;> linarith
    rw [e1, e2, min_eq_left hq12, max_eq_right hq12]

/-- Characterisation of the slab loop over finite bounds: it accepts exactly
when some parameter in the running interval satisfies every remaining
per-axis condition. -/
theorem slabLoop_iff_exists (b : Aabb) (r : Ray) (hwf : b.wf) :
    ∀ (axes : List (Fin 3)) (a bq : ℚ), a ≤ bq →
      (Aabb.slabLoop b r axes (FP.fin a) (FP.fin bq) = true ↔
        ∃ t : ℚ, a ≤ t ∧ t ≤ bq ∧ ∀ i ∈ axes, axisOk b r i t) := by
  intro axes
  induction axes with
  | nil =>
    intro a bq hab
    constructor
    · intro _
      exact ⟨a, le_refl a, hab, by simp⟩
    · intro _
      rfl
  | cons i rest ih =>
    intro a bq hab
    have haxk : ∀ t : ℚ, r.dir.nth i = 0 → (axisOk b r i t ↔
        ((b.min.nth i < r.origin.nth i ∧ r.origin.nth i < b.max.nth i) ∨
         (b.min.nth i = r.origin.nth i ∧ r.origin.nth i = b.max.nth i))) := by
      intro t hdi
      unfold axisOk
      rw [if_pos hdi]
    by_cases hdi : r.dir.nth i = 0
    · rcases lt_trichotomy (r.origin.nth i) (b.min.nth i) with ho1 | ho1 | ho1
      · -- origin strictly before the min plane: both plane parameters are +∞
        have hstep : Aabb.slabLoop b r (i :: rest) (FP.fin a) (FP.fin bq) = false := by
          rw [Aabb.slabLoop]
          rw [show FP.div (b.min.nth i - r.origin.nth i) (r.dir.nth i) = FP.pinf by
            rw [hdi]; exact FP.div_zero_pos (by linarith)]
          rw [show FP.div (b.max.nth i - r.origin.nth i) (r.dir.nth i) = FP.pinf by
            rw [hdi]; exact FP.div_zero_pos (by linarith [hwf i])]
          simp [FP.fpMin, FP.fpMax, FP.fpLt]
        rw [hstep]
        simp only [Bool.false_eq_true, false_iff]
        rintro ⟨t, _, _, hall⟩
        have := (haxk t hdi).mp (hall i (List.mem_cons_self i rest))
        rcases this with ⟨h, _⟩ | ⟨h, _⟩ <;> linarith [h, ho1]
      · -- origin exactly on the min plane
        rcases lt_or_eq_of_le (hwf i) with ho2 | ho2
        · -- min < max: NaN on the min plane, +∞ on the max plane: reject
          have hstep : Aabb.slabLoop b r (i :: rest) (FP.fin a) (FP.fin bq) = false := by
            rw [Aabb.slabLoop]
            rw [show FP.div (b.min.nth i - r.origin.nth i) (r.dir.nth i) = FP.nan by
              rw [hdi, show b.min.nth i - r.origin.nth i = 0 by linarith]
              exact FP.div_zero_zero]
            rw [show FP.div (b.max.nth i - r.origin.nth i) (r.dir.nth i) = FP.pinf by
              rw [hdi]; exact FP.div_zero_pos (by linarith)]
            simp [FP.fpMin, FP.fpMax, FP.fpLt]
          rw [hstep]
          simp only [Bool.false_eq_true, false_iff]
          rintro ⟨t, _, _, hall⟩
          have := (haxk t hdi).mp (hall i (List.mem_cons_self i rest))
          rcases this with ⟨h, _⟩ | ⟨_, h⟩ <;> linarith
        · -- fully degenerate slab min = origin = max: both NaN, unconstrained
          have hstep : Aabb.slabLoop b r (i :: rest) (FP.fin a) (FP.fin bq) =
              Aabb.slabLoop b r rest (FP.fin a) (FP.fin bq) := by
            rw [Aabb.slabLoop]
            rw [show FP.div (b.min.nth i - r.origin.nth i) (r.dir.nth i) = FP.nan by
              rw [hdi, show b.min.nth i - r.origin.nth i = 0 by linarith]
              exact FP.div_zero_zero]
            rw [show FP.div (b.max.nth i - r.origin.nth i) (r.dir.nth i) = FP.nan by
              rw [hdi, show b.max.nth i - r.origin.nth i = 0 by linarith]
              exact FP.div_zero_zero]
            simp [FP.fpMin, FP.fpMax, FP.fpLt, not_lt.mpr hab]
          rw [hstep, ih a bq hab]
          constructor
          · rintro ⟨t, h1, h2, hall⟩
            refine ⟨t, h1, h2, fun j hj => ?_⟩
            rcases List.mem_cons.mp hj with rfl | hj
            · exact (haxk t hdi).mpr (Or.inr ⟨ho1.symm, by linarith⟩)
            · exact hall j hj
          · rintro ⟨t, h1, h2, hall⟩
            exact ⟨t, h1, h2, fun j hj => hall j (List.mem_cons_of_mem i hj)⟩
      · -- origin after the min plane
        rcases lt_trichotomy (r.origin.nth i) (b.max.nth i) with ho2 | ho2 | ho2
        · -- strictly inside the slab: −∞ and +∞, unconstrained
          have hstep : Aabb.slabLoop b r (i :: rest) (FP.fin a) (FP.fin bq) =
              Aabb.slabLoop b r rest (FP.fin a) (FP.fin bq) := by
            rw [Aabb.slabLoop]
            rw [show FP.div (b.min.nth i - r.origin.nth i) (r.dir.nth i) = FP.ninf by
              rw [hdi]; exact FP.div_zero_neg (by linarith)]
            rw [show FP.div (b.max.nth i - r.origin.nth i) (r.dir.nth i) = FP.pinf by
              rw [hdi]; exact FP.div_zero_pos (by linarith)]
            simp [FP.fpMin, FP.fpMax, FP.fpLt, not_lt.mpr hab]
          rw [hstep, ih a bq hab]
          constructor
          · rintro ⟨t, h1, h2, hall⟩
            refine ⟨t, h1, h2, fun j hj => ?_⟩
            rcases List.mem_cons.mp hj with rfl | hj
            · exact (haxk t hdi).mpr (Or.inl ⟨ho1, ho2⟩)
            · exact hall j hj
          · rintro ⟨t, h1, h2, hall⟩
            exact ⟨t, h1, h2, fun j hj => hall j (List.mem_cons_of_mem i hj)⟩
        · -- origin exactly on the max plane with min < max: −∞ and NaN: reject
          have hstep : Aabb.slabLoop b r (i :: rest) (FP.fin a) (FP.fin bq) = false := by
            rw [Aabb.slabLoop]
            rw [show FP.div (b.min.nth i - r.origin.nth i) (r.dir.nth i) = FP.ninf by
              rw [hdi]; exact FP.div_zero_neg (by linarith)]
            rw [show FP.div (b.max.nth i - r.origin.nth i) (r.dir.nth i) = FP.nan by
              rw [hdi, show b.max.nth i - r.origin.nth i = 0 by linarith]
              exact FP.div_zero_zero]
            simp [FP.fpMin, FP.fpMax, FP.fpLt]
          rw [hstep]
          simp only [Bool.false_eq_true, false_iff]
          rintro ⟨t, _, _, hall⟩
          have := (haxk t hdi).mp (hall i (List.mem_cons_self i rest))
          rcases this with ⟨_, h⟩ | ⟨h, _⟩ <;> linarith
        · -- origin after the max plane: both −∞: reject
          have hstep : Aabb.slabLoop b r (i :: rest) (FP.fin a) (FP.fin bq) = false := by
            rw [Aabb.slabLoop]
            rw [show FP.div (b.min.nth i - r.origin.nth i) (r.dir.nth i) = FP.ninf by
              rw [hdi]; exact FP.div_zero_neg (by linarith)]
            rw [show FP.div (b.max.nth i - r.origin.nth i) (r.dir.nth i) = FP.ninf by
              rw [hdi]; exact FP.div_zero_neg (by linarith)]
            simp [FP.fpMin, FP.fpMax, FP.fpLt]
          rw [hstep]
          simp only [Bool.false_eq_true, false_iff]
          rintro ⟨t, _, _, hall⟩
          have := (haxk t hdi).mp (hall i (List.mem_cons_self i rest))
          rcases this with ⟨_, h⟩ | ⟨_, h⟩ <;> linarith
    · -- nonzero direction: finite plane parameters narrow the interval
      have hstep : Aabb.slabLoop b r (i :: rest) (FP.fin a) (FP.fin bq) =
          if Min.min (Max.max ((b.min.nth i - r.origin.nth i) / r.dir.nth i)
                ((b.max.nth i - r.origin.nth i) / r.dir.nth i)) bq <
              Max.max (Min.min ((b.min.nth i - r.origin.nth i) / r.dir.nth i)
                ((b.max.nth i - r.origin.nth i) / r.dir.nth i)) a
          then false
          else Aabb.slabLoop b r rest
            (FP.fin (Max.max (Min.min ((b.min.nth i - r.origin.nth i) / r.dir.nth i)
              ((b.max.nth i - r.origin.nth i) / r.dir.nth i)) a))
            (FP.fin (Min.min (Max.max ((b.min.nth i - r.origin.nth i) / r.dir.nth i)
              ((b.max.nth i - r.origin.nth i) / r.dir.nth i)) bq)) := by
        rw [Aabb.slabLoop]
        rw [FP.div_of_ne hdi, FP.div_of_ne hdi]
        simp [FP.fpMin, FP.fpMax, FP.fpLt]
      rw [hstep]
      set lo := Min.min ((b.min.nth i - r.origin.nth i) / r.dir.nth i)
        ((b.max.nth i - r.origin.nth i) / r.dir.nth i) with hlo
      set hi := Max.max ((b.min.nth i - r.origin.nth i) / r.dir.nth i)
        ((b.max.nth i - r.origin.nth i) / r.dir.nth i) with hhi
      by_cases hguard : Min.min hi bq < Max.max lo a
      · rw [if_pos hguard]
        simp only [Bool.false_eq_true, false_iff]
        rintro ⟨t, h1, h2, hall⟩
        have hax := (axisOk_iff_mem hdi (hwf i)).mp (hall i (List.mem_cons_self i rest))
        rw [← hlo, ← hhi] at hax
        have : Max.max lo a ≤ Min.min hi bq :=
          le_trans (max_le hax.1 h1) (le_min hax.2 h2)
        linarith
      · rw [if_neg hguard, ih _ _ (not_lt.mp hguard)]
        constructor
        · rintro ⟨t, h1, h2, hall⟩
          refine ⟨t, le_trans (le_max_right lo a) h1,
            le_trans h2 (min_le_right hi bq), fun j hj => ?_⟩
          rcases List.mem_cons.mp hj with rfl | hj
          · refine (axisOk_iff_mem hdi (hwf j)).mpr ?_
            rw [← hlo, ← hhi]
            exact ⟨le_trans (le_max_left lo a) h1, le_trans h2 (min_le_left hi bq)⟩
          · exact hall j hj
        · rintro ⟨t, h1, h2, hall⟩
          have hax := (axisOk_iff_mem hdi (hwf i)).mp (hall i (List.mem_cons_self i rest))
          rw [← hlo, ← hhi] at hax
          exact ⟨t, max_le hax.1 h1, le_min hax.2 h2,
            fun j hj => hall j (List.mem_cons_of_mem i hj)⟩

/-- C6 (amended): for every well-formed box and range, the slab test — with
rays whose direction may have zero components — returns true exactly when
some parameter in `[t_min, t_max]` satisfies every per-axis condition, where
an axis with zero direction accepts only an origin strictly between the two
planes (or a fully degenerate slab `min = origin = max`); in particular no
0/0 NaN ever makes the test return true spuriously. -/
theorem aabb_intersects_iff_slabPass (b : Aabb) (r : Ray) (tmin tmax : ℚ)
    (hwf : b.wf) (hab : tmin ≤ tmax) :
    (b.intersects r tmin ((tmax : ℚ) : Qi) = true) ↔ slabPass b r tmin tmax := by
  unfold Aabb.intersects slabPass
  have hofqi : FP.ofQi ((tmax : ℚ) : Qi) = FP.fin tmax := rfl
  rw [hofqi, slabLoop_iff_exists b r hwf [0, 1, 2] tmin tmax hab]
  constructor
  · rintro ⟨t, h1, h2, hall⟩
    exact ⟨t, h1, h2, fun i => hall i (by fin_cases i <;> simp)⟩
  · rintro ⟨t, h1, h2, hall⟩
    exact ⟨t, h1, h2, fun i _ => hall i⟩

/-- Counterexample to C6 as stated: a ray lying exactly on the `x = 0` face
of the unit box (zero `x` direction component) geometrically passes through
the closed box within `[0, 10]`, yet the slab test reports a miss. -/
theorem aabb_face_ray_reported_miss :
    Aabb.intersects c6Box c6FaceRay 0 ((10 : ℚ) : Qi) = false ∧
      linePassesThroughBox c6Box c6FaceRay 0 10 :=
  ⟨of_decide_eq_true (by with_unfolding_all rfl),
   ⟨1, of_decide_eq_true (by with_unfolding_all rfl)⟩⟩

/-- Witness for the amended C6 at the unit box with an interior ray. -/
theorem aabb_intersects_iff_slabPass_witness :
    (c6Box.wf ∧ (0 : ℚ) ≤ 10) ∧
      ((c6Box.intersects c6InteriorRay 0 ((10 : ℚ) : Qi) = true) ↔
        slabPass c6Box c6InteriorRay 0 10) :=
  ⟨⟨of_decide_eq_true (by with_unfolding_all rfl), by norm_num⟩,
   aabb_intersects_iff_slabPass c6Box c6InteriorRay 0 10
     (of_decide_eq_true (by with_unfolding_all rfl)) (by norm_num)⟩

/-- C9: for every BVH tree produced by construction from a non-empty list of
primitives (with the geometrically meaningful non-negative radii) and for
every value of the split-configuration constants, every internal node's
bounding box fully contains the bounding boxes of both of its children — on
every construction path (two-object node, SAH split, and median split). -/
theorem bvh_construction_contains_children (minSplit maxD : ℕ) (tc ic : ℚ)
    (objs : List Sphere) (depth : ℕ) (hne : objs ≠ [])
    (hrad : ∀ s ∈ objs, 0 ≤ s.radius) :
    (constructRecursive minSplit maxD tc ic objs depth).bvhInvariant :=
  (constructRecAux_spec minSplit maxD tc ic objs.length objs depth hne le_rfl
    hrad).2.1

/-- Witness for C9 at a concrete four-primitive input taking the SAH path. -/
theorem bvh_construction_contains_children_witness :
    (demoSpheres4 ≠ [] ∧ ∀ s ∈ demoSpheres4, 0 ≤ s.radius) ∧
      (constructRecursive 3 16 1 2 demoSpheres4 0).bvhInvariant :=
  ⟨⟨by simp [demoSpheres4], of_decide_eq_true (by with_unfolding_all rfl)⟩,
    bvh_construction_contains_children 3 16 1 2 demoSpheres4 0
      (by simp [demoSpheres4]) (of_decide_eq_true (by with_unfolding_all rfl))⟩

/-- C1 (amended): for every ray all of whose direction components are
nonzero, every parametric range, and every non-empty primitive list (with
non-negative radii and an exact square-root oracle at the encountered
discriminants), the BVH traversal returns the same nearest-hit distance as
the brute-force linear scan: it returns a hit iff the scan finds one, at the
minimum scanned distance. -/
theorem bvh_intersects_eq_linearScan (minSplit maxD : ℕ) (tc ic : ℚ)
    (sq : ℚ → ℚ) (objs : List Sphere) (ray : Ray) (tmin : ℚ) (tmax : Qi)
    (hne : objs ≠ []) (hdir : ∀ i : Fin 3, ray.dir.nth i ≠ 0)
    (hsound : ∀ s ∈ objs, s.sqSoundAt sq ray)
    (hrad : ∀ s ∈ objs, 0 ≤ s.radius) :
    distOf ((construct minSplit maxD tc ic objs).intersects sq ray tmin tmax) =
      distOf (linearScan sq objs ray tmin tmax) := by
  obtain ⟨hwf, hinv, hperm⟩ := constructRecAux_spec minSplit maxD tc ic
    objs.length objs 0 hne le_rfl hrad
  rw [distOf_linearScan]
  have heq := traversal_scanDist sq ray hdir
    (constructRecAux minSplit maxD tc ic objs.length objs 0) hwf hinv
    (fun s hs => hsound s (hperm.mem_iff.mp hs))
    (fun s hs => hrad s (hperm.mem_iff.mp hs)) tmin tmax
  calc distOf ((construct minSplit maxD tc ic objs).intersects sq ray tmin tmax)
      = scanDist sq (constructRecAux minSplit maxD tc ic objs.length objs
          0).leaves ray tmin tmax := heq
    _ = scanDist sq objs ray tmin tmax := scanDist_perm sq hperm ray tmin tmax

/-- Counterexample to C1 as stated: a ray lying exactly on a face of the
root bounding box (one direction component is zero) grazes a sphere
tangentially; the linear scan reports the tangent hit at distance 10 while
the BVH rejects the ray at the root box (the 0/0 NaN boundary case of the
slab test) and reports no hit. -/
theorem bvh_misses_scan_hit_on_face_ray :
    distOf ((construct 4 16 1 2 [c1Sphere1, c1Sphere2]).intersects ratSqrt
        c1FaceRay 0 ((100 : ℚ) : Qi)) = none ∧
      distOf (linearScan ratSqrt [c1Sphere1, c1Sphere2] c1FaceRay 0
        ((100 : ℚ) : Qi)) = some 10 :=
  ⟨of_decide_eq_true (by with_unfolding_all rfl),
   of_decide_eq_true (by with_unfolding_all rfl)⟩

/-- Witness for the amended C1 at a concrete two-sphere scene and a diagonal
ray with all direction components nonzero. -/
theorem bvh_intersects_eq_linearScan_witness :
    ([c1wSphere1, c1wSphere2] ≠ [] ∧ (∀ i : Fin 3, c1wRay.dir.nth i ≠ 0) ∧
      (∀ s ∈ [c1wSphere1, c1wSphere2], s.sqSoundAt ratSqrt c1wRay) ∧
      (∀ s ∈ [c1wSphere1, c1wSphere2], 0 ≤ s.radius)) ∧
    distOf ((construct 4 16 1 2 [c1wSphere1, c1wSphere2]).intersects ratSqrt
        c1wRay 0 ((100 : ℚ) : Qi)) =
      distOf (linearScan ratSqrt [c1wSphere1, c1wSphere2] c1wRay 0
        ((100 : ℚ) : Qi)) :=
  ⟨⟨by simp [c1wSphere1, c1wSphere2],
    of_decide_eq_true (by with_unfolding_all rfl),
    of_decide_eq_true (by with_unfolding_all rfl),
    of_decide_eq_true (by with_unfolding_all rfl)⟩,
   bvh_intersects_eq_linearScan 4 16 1 2 ratSqrt [c1wSphere1, c1wSphere2]
     c1wRay 0 ((100 : ℚ) : Qi) (by simp [c1wSphere1, c1wSphere2])
     (of_decide_eq_true (by with_unfolding_all rfl))
     (of_decide_eq_true (by with_unfolding_all rfl))
     (of_decide_eq_true (by with_unfolding_all rfl))⟩

/-- C2: the generic `shade` adds the material's reflective contribution once
per light that passes the cosine/radiance/shadow skip tests, not once per
call: with zero ambient term and zero material response but reflective
`(1,0,0)`, one passing light yields `(1,0,0)`, two passing lights yield
`(2,0,0)`, and with no lights the reflective contribution is never added at
all — contradicting the claimed once-per-call behaviour. -/
theorem shade_adds_reflective_per_light :
    shade c2Ambient [c2Light] c2Mtl c2Hit = ⟨1, 0, 0⟩ ∧
      shade c2Ambient [c2Light, c2Light] c2Mtl c2Hit = ⟨2, 0, 0⟩ ∧
      shade c2Ambient [] c2Mtl c2Hit = ⟨0, 0, 0⟩ :=
  ⟨of_decide_eq_true (by with_unfolding_all rfl),
   of_decide_eq_true (by with_unfolding_all rfl),
   of_decide_eq_true (by with_unfolding_all rfl)⟩

/-- C3: `trace` called with `depth > max_depth` returns exactly the zero
color, for every renderer, every ray, and every fuel: the fuel-indexed trace
returns `some 0` whenever it can take a step, and the total wrapper returns
`0`. -/
theorem trace_depth_exceeded_black (r : Renderer) (ray : Ray) (depth : ℕ)
    (fuel : ℕ) (h : r.maxDepth < depth) :
    traceF (fuel + 1) r ray depth = some Vec3.zeros ∧
      r.trace ray depth = Vec3.zeros := by
  constructor
  · simp [traceF, h]
  · unfold Renderer.trace
    cases hn : r.maxDepth + 2 - depth with
    | zero => simp [traceF]
    | succ n => simp [traceF, h]

/-- Closed instance of the depth-termination theorem at the demo renderer
(`max_depth = 5`) and `depth = 6`. -/
theorem trace_depth_exceeded_black_witness :
    demoRenderer.maxDepth < 6 ∧
      (traceF 1 demoRenderer ⟨⟨0, 0, 0⟩, ⟨0, 0, 1⟩⟩ 6 = some Vec3.zeros ∧
        demoRenderer.trace ⟨⟨0, 0, 0⟩, ⟨0, 0, 1⟩⟩ 6 = Vec3.zeros) :=
  ⟨of_decide_eq_true rfl,
   trace_depth_exceeded_black demoRenderer ⟨⟨0, 0, 0⟩, ⟨0, 0, 1⟩⟩ 6 0
     (of_decide_eq_true rfl)⟩

/-- C4 (amended): the shared shadow test offsets its origin by
`0.00001 * dir` and reports "in shadow" iff the single nearest scene hit
within the valid range is non-emissive; a non-emissive occluder hidden
behind a nearer emissive hit does not count. -/
theorem inShadow_iff_nearest_nonemissive (sq : ℚ → ℚ) (root : List Geometry)
    (p dir : Vec3) (tMax : Qi) :
    inShadow sq root p dir tMax = true ↔
      ∃ rec : HitRecord,
        sceneIntersects sq root (Ray.mk (p + dir.smul (1 / 100000)) dir) 0 tMax
            = some rec ∧
          rec.material.emissive = false := by
  rw [show inShadow sq root p dir tMax =
      ((sceneIntersects sq root (Ray.mk (p + dir.smul (1 / 100000)) dir) 0
          tMax).filter fun obj => !obj.material.emissive).isSome from rfl]
  cases h : sceneIntersects sq root (Ray.mk (p + dir.smul (1 / 100000)) dir) 0
      tMax with
  | none => simp [Option.filter]
  | some rec =>
    cases hem : rec.material.emissive with
    | true => simp [Option.filter, hem]
    | false => simp [Option.filter, hem]

/-- C4 counterexample: along `+z`, `c4Root` has a non-emissive occluder (the
matte sphere, at distance ≈ 9) inside the range, yet `in_shadow` reports no
shadow because the nearest hit (the emissive sphere, at distance ≈ 4) is
emissive and the filter drops the whole result. -/
theorem inShadow_ignores_occluder_behind_emissive :
    inShadow ratSqrt c4Root ⟨0, 0, 0⟩ ⟨0, 0, 1⟩ ((100 : ℚ) : Qi) = false ∧
      existsNonEmissiveHit ratSqrt c4Root
        (Ray.mk ((⟨0, 0, 0⟩ : Vec3) + Vec3.smul ⟨0, 0, 1⟩ (1 / 100000))
          ⟨0, 0, 1⟩) 0 ((100 : ℚ) : Qi) = true :=
  ⟨of_decide_eq_true (by with_unfolding_all rfl),
   of_decide_eq_true (by with_unfolding_all rfl)⟩

/-- C5 (amended): the directional light's `shadow_amount` returns `1`
unconditionally — it casts no shadow ray and never returns `0`; its
direction is fixed and its radiance is `cl * ls`. -/
theorem directional_shadow_amount_eq_one (d : Directional) (hit : HitCtx) :
    d.shadowAmount hit = 1 ∧ d.getDirection hit = d.direction ∧
      d.radiance hit = d.cl.smul d.ls :=
  ⟨rfl, rfl, rfl⟩

/-- C5 counterexample: with a matte occluder toward the light direction (the
shared shadow test reports an occluder before infinity), the directional
light still returns `shadow_amount = 1`, not the claimed `0`. -/
theorem directional_shadow_ignores_occluder :
    inShadow ratSqrt c5Root c5Hit.hitPoint (c5Light.getDirection c5Hit) ⊤
        = true ∧
      c5Light.shadowAmount c5Hit = 1 ∧ (1 : ℚ) ≠ 0 :=
  ⟨of_decide_eq_true (by with_unfolding_all rfl), rfl, one_ne_zero⟩

/-- C10: the recursive trace terminates with depth bounded by
`max_depth + 1` levels: fuel `max_depth + 2 − depth` (one unit per level of
the single `depth + 1` recursion, plus the final guard step) always
suffices — the trace succeeds, and its value does not depend on the fuel
beyond that bound. -/
theorem trace_terminates (r : Renderer) :
    ∀ fuel₁ fuel₂ : ℕ, ∀ ray : Ray, ∀ depth : ℕ,
      r.maxDepth + 2 - depth ≤ fuel₁ → 1 ≤ fuel₁ →
      r.maxDepth + 2 - depth ≤ fuel₂ → 1 ≤ fuel₂ →
      (traceF fuel₁ r ray depth).isSome = true ∧
        traceF fuel₁ r ray depth = traceF fuel₂ r ray depth := by
  intro fuel₁
  induction fuel₁ with
  | zero => intro fuel₂ ray depth _ h1 _ _; omega
  | succ f ih =>
    intro fuel₂ ray depth hb1 h1 hb2 h2
    obtain ⟨f₂, rfl⟩ : ∃ f₂, fuel₂ = f₂ + 1 := ⟨fuel₂ - 1, by omega⟩
    by_cases hd : r.maxDepth < depth
    · constructor
      · simp [traceF, hd]
      · simp [traceF, hd]
    · have hdep : depth ≤ r.maxDepth := by omega
      have step : ∀ (R : Ray) (g : Color → Color),
          ((traceF f r R (depth + 1)).map g).isSome = true ∧
            (traceF f r R (depth + 1)).map g
              = (traceF f₂ r R (depth + 1)).map g := by
        intro R g
        obtain ⟨hsome, heq⟩ := ih f₂ R (depth + 1) (by omega) (by omega)
          (by omega) (by omega)
        refine ⟨?_, by rw [heq]⟩
        obtain ⟨c, hc⟩ := Option.isSome_iff_exists.mp hsome
        rw [hc]
        rfl
      simp only [traceF]
      rw [if_neg hd, if_neg hd]
      cases hs : sceneIntersects r.ora.sq r.scene.root ray 0 ⊤ with
      | none => exact ⟨rfl, rfl⟩
      | some record =>
        dsimp only
        cases hm : record.material with
        | Matte a d => exact ⟨rfl, rfl⟩
        | Emissive ls ce => exact ⟨rfl, rfl⟩
        | Phong a d s =>
          dsimp only
          exact step _ _
        | Reflective a d s p =>
          dsimp only
          exact step _ _

/-- Closed instance of the termination theorem at the demo renderer
(`max_depth = 5`, so fuel `7` from depth `0` suffices and agrees with fuel
`8`). -/
theorem trace_terminates_witness :
    (demoRenderer.maxDepth + 2 - 0 ≤ 7 ∧ 1 ≤ 7 ∧
        demoRenderer.maxDepth + 2 - 0 ≤ 8 ∧ (1 : ℕ) ≤ 8) ∧
      ((traceF 7 demoRenderer ⟨⟨0, 0, 0⟩, ⟨0, 0, 1⟩⟩ 0).isSome = true ∧
        traceF 7 demoRenderer ⟨⟨0, 0, 0⟩, ⟨0, 0, 1⟩⟩ 0
          = traceF 8 demoRenderer ⟨⟨0, 0, 0⟩, ⟨0, 0, 1⟩⟩ 0) :=
  ⟨⟨of_decide_eq_true rfl, of_decide_eq_true rfl, of_decide_eq_true rfl,
    of_decide_eq_true rfl⟩,
   trace_terminates demoRenderer 7 8 ⟨⟨0, 0, 0⟩, ⟨0, 0, 1⟩⟩ 0
     (of_decide_eq_true rfl) (of_decide_eq_true rfl) (of_decide_eq_true rfl)
     (of_decide_eq_true rfl)⟩

/-- C8: sphere intersection solves the quadratic `|O + tD − C|² = r²`: a
negative discriminant means no hit; otherwise the nearer root is taken, the
farther root is tried exactly when the nearer one falls outside
`[t_min, t_max]`, and no hit is reported when both fall outside.
Consequently, for a sphere of radius `r > 0` centered at the origin and a
unit ray from `(0,0,−2r)` toward the origin, with the square-root oracle
exact at the encountered values `r²` and `1`, the hit is at distance `r`
with surface normal `(0,0,−1)`. -/
theorem sphere_roots_and_roundtrip :
    (∀ (sq : ℚ → ℚ) (s : Sphere) (ray : Ray) (tmin : ℚ) (tmax : Qi),
        s.intersects sq ray tmin tmax =
          if s.disc ray < 0 then none
          else if s.tNear sq ray < tmin ∨ tmax < (s.tNear sq ray : Qi) then
            if s.tFar sq ray < tmin ∨ tmax < (s.tFar sq ray : Qi) then none
            else some ⟨s.tFar sq ray, ray.getPoint (s.tFar sq ray),
              s.normal sq (ray.getPoint (s.tFar sq ray)), s.material⟩
          else some ⟨s.tNear sq ray, ray.getPoint (s.tNear sq ray),
            s.normal sq (ray.getPoint (s.tNear sq ray)), s.material⟩) ∧
    (∀ (sq : ℚ → ℚ) (r : ℚ) (m : Material), 0 < r → sq (r * r) = r →
        sq 1 = 1 →
        Sphere.intersects sq ⟨r, ⟨0, 0, 0⟩, m⟩ ⟨⟨0, 0, -(2 * r)⟩, ⟨0, 0, 1⟩⟩
            0 ⊤
          = some ⟨r, ⟨0, 0, -r⟩, ⟨0, 0, -1⟩, m⟩) := by
  constructor
  · intro sq s ray tmin tmax
    rfl
  · intro sq r m hr hsqr hsq1
    have hrne : r ≠ 0 := ne_of_gt hr
    have hdisc : Sphere.disc ⟨r, ⟨0, 0, 0⟩, m⟩ ⟨⟨0, 0, -(2 * r)⟩, ⟨0, 0, 1⟩⟩
        = r * r := by
      simp only [Sphere.disc, Sphere.halfB, Sphere.cQ, Sphere.oc, Vec3.dot,
        Vec3.sub_x, Vec3.sub_y, Vec3.sub_z]
      ring
    have hhb : Sphere.halfB ⟨r, ⟨0, 0, 0⟩, m⟩ ⟨⟨0, 0, -(2 * r)⟩, ⟨0, 0, 1⟩⟩
        = -(2 * r) := by
      simp only [Sphere.halfB, Sphere.oc, Vec3.dot, Vec3.sub_x, Vec3.sub_y,
        Vec3.sub_z]
      ring
    have htn : Sphere.tNear sq ⟨r, ⟨0, 0, 0⟩, m⟩ ⟨⟨0, 0, -(2 * r)⟩, ⟨0, 0, 1⟩⟩
        = r := by
      rw [Sphere.tNear, hhb, hdisc, hsqr]
      show (-(-(2 * r)) - r) / Vec3.dot ⟨0, 0, 1⟩ ⟨0, 0, 1⟩ = r
      rw [show Vec3.dot (⟨0, 0, 1⟩ : Vec3) ⟨0, 0, 1⟩ = 1 by
        norm_num [Vec3.dot]]
      ring
    have hpt : Ray.getPoint ⟨⟨0, 0, -(2 * r)⟩, ⟨0, 0, 1⟩⟩ r
        = (⟨0, 0, -r⟩ : Vec3) := by
      simp only [Ray.getPoint]
      rw [Vec3.eq_iff_nth]
      intro i
      fin_cases i <;> (simp [Vec3.nth, Vec3.smul]; try ring)
    have hnm : Sphere.normal sq ⟨r, ⟨0, 0, 0⟩, m⟩ (⟨0, 0, -r⟩ : Vec3)
        = ⟨0, 0, -1⟩ := by
      unfold Sphere.normal Vec3.normalizeW
      have hv : (((⟨0, 0, -r⟩ : Vec3) - (⟨0, 0, 0⟩ : Vec3)).smul r⁻¹)
          = (⟨0, 0, -1⟩ : Vec3) := by
        rw [Vec3.eq_iff_nth]
        intro i
        fin_cases i <;> simp [Vec3.nth, Vec3.smul, hrne]
      show (((⟨0, 0, -r⟩ : Vec3) - (⟨0, 0, 0⟩ : Vec3)).smul r⁻¹).smul
          (sq (Vec3.dot (((⟨0, 0, -r⟩ : Vec3) - ⟨0, 0, 0⟩).smul r⁻¹)
            (((⟨0, 0, -r⟩ : Vec3) - ⟨0, 0, 0⟩).smul r⁻¹)))⁻¹ = ⟨0, 0, -1⟩
      rw [hv]
      rw [show Vec3.dot (⟨0, 0, -1⟩ : Vec3) ⟨0, 0, -1⟩ = 1 by
        norm_num [Vec3.dot]]
      rw [hsq1]
      rw [Vec3.eq_iff_nth]
      intro i
      fin_cases i <;> norm_num [Vec3.nth, Vec3.smul]
    rw [Sphere.intersects_eq, hdisc, htn]
    rw [if_neg (not_lt.mpr (mul_self_nonneg r))]
    rw [if_neg (by
      rw [not_or]
      exact ⟨not_lt.mpr hr.le, not_top_lt⟩)]
    rw [hpt, hnm]

/-- Closed instance of the sphere round-trip at radius `1` with the exact
rational square root. -/
theorem sphere_roots_and_roundtrip_witness :
    ((0 : ℚ) < 1 ∧ ratSqrt (1 * 1) = 1 ∧ ratSqrt 1 = 1) ∧
      Sphere.intersects ratSqrt ⟨1, ⟨0, 0, 0⟩, demoMatte⟩
          ⟨⟨0, 0, -(2 * 1)⟩, ⟨0, 0, 1⟩⟩ 0 ⊤
        = some ⟨1, ⟨0, 0, -1⟩, ⟨0, 0, -1⟩, demoMatte⟩ :=
  ⟨⟨by norm_num, of_decide_eq_true (by with_unfolding_all rfl),
    of_decide_eq_true (by with_unfolding_all rfl)⟩,
   sphere_roots_and_roundtrip.2 ratSqrt 1 demoMatte (by norm_num)
     (of_decide_eq_true (by with_unfolding_all rfl))
     (of_decide_eq_true (by with_unfolding_all rfl))⟩

/-! ### Chunking lemmas and the render claims -/
theorem chunksOfAux_flatMap {α β : Type} (f : α → List β) (k : ℕ)
    (hk : 1 ≤ k) :
    ∀ (l : List α) (fuel : ℕ), (l.flatMap f).length ≤ fuel →
      (∀ x ∈ l, (f x).length = k) →
      chunksOfAux k fuel (l.flatMap f) = l.map f := by
  intro l
  induction l with
  | nil =>
    intro fuel _ _
    cases fuel <;> rfl
  | cons a t ih =>
    intro fuel hfuel hf
    have hfa : (f a).length = k := hf a (by simp)
    have hne : f a ≠ [] := by
      intro h
      rw [h] at hfa
      simp only [List.length_nil] at hfa
      omega
    obtain ⟨b, bs, hb⟩ := List.exists_cons_of_ne_nil hne
    have hlen : ((a :: t).flatMap f).length = k + (t.flatMap f).length := by
      rw [List.flatMap_cons, List.length_append, hfa]
    obtain ⟨fu, rfl⟩ : ∃ fu, fuel = fu + 1 := by
      refine ⟨fuel - 1, ?_⟩
      omega
    rw [List.flatMap_cons, hb, List.cons_append, chunksOfAux]
    have htake : ((b :: bs) ++ t.flatMap f).take k = b :: bs := by
      rw [show k = (b :: bs).length from by rw [← hb, hfa]]
      exact List.take_left _ _
    have hdrop : ((b :: bs) ++ t.flatMap f).drop k = t.flatMap f := by
      rw [show k = (b :: bs).length from by rw [← hb, hfa]]
      exact List.drop_left _ _
    rw [← List.cons_append, htake, hdrop]
    rw [ih fu (by omega) fun x hx => hf x (List.mem_cons_of_mem a hx)]
    rw [← hb, List.map_cons]

theorem chunksOf_flatMap {α β : Type} (f : α → List β) {k : ℕ} (hk : 1 ≤ k)
    (l : List α) (hf : ∀ x ∈ l, (f x).length = k) :
    chunksOf k (l.flatMap f) = l.map f :=
  chunksOfAux_flatMap f k hk l (l.flatMap f).length le_rfl hf

theorem chunksOfAux_flatten {α : Type} (k : ℕ) (hk : 1 ≤ k) :
    ∀ (fuel : ℕ) (l : List α), l.length ≤ fuel →
      (chunksOfAux k fuel l).flatten = l := by
  intro fuel
  induction fuel with
  | zero =>
    intro l hl
    have hnil : l = [] := List.eq_nil_of_length_eq_zero (by omega)
    subst hnil
    rfl
  | succ fu ih =>
    intro l hl
    cases l with
    | nil => rfl
    | cons a t =>
      have hl' : t.length + 1 ≤ fu + 1 := by simpa using hl
      rw [chunksOfAux, List.flatten_cons]
      rw [ih ((a :: t).drop k)
        (by simp only [List.length_drop, List.length_cons]; omega)]
      exact List.take_append_drop k (a :: t)

theorem chunksOf_flatten {α : Type} {k : ℕ} (hk : 1 ≤ k) (l : List α) :
    (chunksOf k l).flatten = l :=
  chunksOfAux_flatten k hk l.length l le_rfl

theorem flatten_map_map {α β : Type} (f : α → β) (L : List (List α)) :
    (L.map fun c => c.map f).flatten = L.flatten.map f := by
  induction L with
  | nil => rfl
  | cons c t ih =>
    rw [List.map_cons, List.flatten_cons, List.flatten_cons, List.map_append,
      ih]

/-- A full sample batch: when the skip leaves at least `num_samples` pool
entries, `get_rays` produces exactly `num_samples` rays. -/
theorem length_getRays_full {s : Sampler} (sq : ℚ → ℚ) (c : Pinhole)
    (o : ℚ × ℚ) {skip : ℕ} (h : skip + s.numSamples ≤ s.samples.length) :
    (c.getRays sq o s skip).length = s.numSamples := by
  simp only [Pinhole.getRays, Sampler.square, Sampler.unitSquare,
    List.length_map, List.length_take, List.length_drop]
  omega

/-- C7 (amended): for a nonzero resolution, at least one thread, a nonzero
sample count, and set skips that always leave a full batch in the sample
pool (`skip + num_samples ≤ pool length`), `render` returns exactly one
color per pixel in row-major order, each the average (sum divided by the
configured sample count) of that pixel's traced sample colors. -/
theorem render_rowmajor_average (r : Renderer) (numThreads : ℕ)
    (skips : ℕ → ℕ) (hw : 1 ≤ r.scene.viewWidth)
    (hh : 1 ≤ r.scene.viewHeight) (ht : 1 ≤ numThreads)
    (hc : 1 ≤ r.sampler.numSamples)
    (hfull : ∀ n, skips n + r.sampler.numSamples ≤ r.sampler.samples.length) :
    r.render numThreads skips
        = (List.range (r.scene.viewWidth * r.scene.viewHeight)).map
            (r.pixelColor skips) ∧
      (r.render numThreads skips).length
        = r.scene.viewWidth * r.scene.viewHeight := by
  have hcount : 1 ≤ r.sampler.count := hc
  have hppt : 1 ≤ (r.scene.viewWidth * r.scene.viewHeight + numThreads - 1)
      / numThreads := by
    rw [Nat.one_le_div_iff (by omega)]
    have := Nat.mul_le_mul hw hh
    omega
  have h1 : ∀ idxs : List ℕ,
      ((chunksOf r.sampler.count
          (idxs.flatMap (r.pixelSamples skips))).map
        fun (samples : List Color) =>
          HDiv.hDiv (samples.foldl (· + ·) Vec3.zeros)
            (r.sampler.count : ℚ))
        = idxs.map (r.pixelColor skips) := by
    intro idxs
    have hflen : ∀ x ∈ idxs,
        (r.pixelSamples skips x).length = r.sampler.count := by
      intro n _
      simp only [Renderer.pixelSamples, List.length_map]
      exact length_getRays_full r.ora.sq r.scene.camera _ (hfull n)
    rw [chunksOf_flatMap (r.pixelSamples skips) hcount idxs hflen,
      List.map_map]
    rfl
  have hmap : r.render numThreads skips
      = (List.range (r.scene.viewWidth * r.scene.viewHeight)).map
          (r.pixelColor skips) := by
    simp only [Renderer.render]
    refine Eq.trans
      (congrArg List.flatten (List.map_congr_left fun idxs _ => h1 idxs)) ?_
    rw [flatten_map_map, chunksOf_flatten hppt]
  exact ⟨hmap, by rw [hmap, List.length_map, List.length_range]⟩

/-- C7 counterexample: with width 2, height 1, two samples per pixel and the
legal random set skip `82` (`< num_sets = 83`), `unit_square` returns a
truncated 1-sample batch for each pixel (the pool holds `83·⌊√2⌋² = 83`
points, and `drop 82` leaves one), so the flat sample buffer regrouped into
chunks of 2 mixes the two pixels' samples and `render` returns 1 color
instead of `width × height = 2`. -/
theorem render_skip_truncates_batches :
    (c7Renderer.render 1 fun _ => 82).length = 1 ∧
      c7Renderer.scene.viewWidth * c7Renderer.scene.viewHeight = 2 ∧
      (∀ n : ℕ, (fun _ => (82 : ℕ)) n < c7Sampler.numSets) :=
  ⟨of_decide_eq_true (by with_unfolding_all rfl), rfl,
   fun _ => of_decide_eq_true (by with_unfolding_all rfl)⟩

/-- Closed instance of the render theorem on a 1×1 image with one sample
per pixel and skip `0` (a full batch). -/
theorem render_rowmajor_average_witness :
    (1 ≤ c7wRenderer.scene.viewWidth ∧ 1 ≤ c7wRenderer.scene.viewHeight ∧
        (1 : ℕ) ≤ 1 ∧ 1 ≤ c7wRenderer.sampler.numSamples ∧
        ∀ n : ℕ, (fun _ => (0 : ℕ)) n + c7wRenderer.sampler.numSamples
          ≤ c7wRenderer.sampler.samples.length) ∧
      (c7wRenderer.render 1 (fun _ => 0)
          = (List.range (c7wRenderer.scene.viewWidth *
              c7wRenderer.scene.viewHeight)).map
              (c7wRenderer.pixelColor fun _ => 0) ∧
        (c7wRenderer.render 1 fun _ => 0).length
          = c7wRenderer.scene.viewWidth * c7wRenderer.scene.viewHeight) :=
  ⟨⟨of_decide_eq_true (by with_unfolding_all rfl),
    of_decide_eq_true (by with_unfolding_all rfl),
    of_decide_eq_true rfl,
    of_decide_eq_true (by with_unfolding_all rfl),
    fun _ => of_decide_eq_true (by with_unfolding_all rfl)⟩,
   render_rowmajor_average c7wRenderer 1 (fun _ => 0)
     (of_decide_eq_true (by with_unfolding_all rfl))
     (of_decide_eq_true (by with_unfolding_all rfl))
     (of_decide_eq_true rfl)
     (of_decide_eq_true (by with_unfolding_all rfl))
     (fun _ => of_decide_eq_true (by with_unfolding_all rfl))⟩

end Raytracer
